import Mathlib

/-!
# Verification of the visp_contrib imgproc topology core

Shallow embedding of the contour-extraction and connected-components code
of the repository (vpContours / vpConnectedComponents, plus the two
diverging contour-extraction variants), and proofs of the specification
claims about them.

Images are embedded as dimensions plus a pixel function; machine-integer
casts that matter (int to unsigned char truncation, double/int to
unsigned int casts) are made explicit with mod 256 and mod 2^32.
-/

namespace Visp

/-! ## Raster images

An unsigned-char image (the caller input `vpImage<unsigned char>`): height,
width and a row-major pixel list.  Out-of-range reads yield 0, which is
only exercised outside the behaviour of the C++ source (whose accesses in
the embedded code paths are in bounds). -/

structure ImgU where
  h : Nat
  w : Nat
  data : List Nat
deriving DecidableEq, Repr

def ImgU.get (I : ImgU) (i j : Nat) : Nat :=
  if i < I.h ∧ j < I.w then I.data.getD (i * I.w + j) 0 else 0

/-- Image size as in vpImage::getSize (height times width). -/
def ImgU.size (I : ImgU) : Nat := I.h * I.w

/-- Pointwise-updated pixel map, used for working rasters. -/
def upd (f : Nat × Nat → Nat) (p : Nat × Nat) (v : Nat) : Nat × Nat → Nat :=
  fun q => if q = p then v else f q

/-- Row-major list of the coordinates of an `h` by `w` raster. -/
def positions (h w : Nat) : List (Nat × Nat) :=
  (List.range h).flatMap fun i => (List.range w).map fun j => (i, j)

/-! ## Connectivity selector (vpConnectedConnexityType) -/

inductive Connexity where
  | four
  | eight
deriving DecidableEq, Repr

/-- Neighbor offsets in the probing order of `getNeighbors` in
vpConnectedComponents: for 4-connexity top, left, right, bottom; for
8-connexity the row-major double loop skipping the center. -/
def neighborOffsets : Connexity → List (Int × Int)
  | .four => [(-1, 0), (0, -1), (0, 1), (1, 0)]
  | .eight => [(-1, -1), (-1, 0), (-1, 1), (0, -1), (0, 1), (1, -1), (1, 0), (1, 1)]

/-- Embedding of `getNeighbors`: push every neighbor (in probing order)
whose pixel equals the current pixel value. -/
def getNeighbors (f : Nat × Nat → Nat) (conn : Connexity) (p : Nat × Nat) :
    List (Nat × Nat) :=
  let curr := f p
  (neighborOffsets conn).filterMap fun d =>
    let ni : Int := (p.1 : Int) + d.1
    let nj : Int := (p.2 : Int) + d.2
    if 0 ≤ ni ∧ 0 ≤ nj ∧ f (ni.toNat, nj.toNat) = curr then some (ni.toNat, nj.toNat)
    else none

/-- The padded working copy built by the copy-and-add-border loop of
`connectedComponents` / `connectedComponents2`: one-pixel zero border
around the input. -/
def padImage (I : ImgU) : Nat × Nat → Nat := fun p =>
  if 1 ≤ p.1 ∧ p.1 ≤ I.h ∧ 1 ≤ p.2 ∧ p.2 ≤ I.w then I.get (p.1 - 1) (p.2 - 1) else 0

/-- Number of nonzero cells of the padded raster, used as the breadth-first
fuel measure. -/
def nzCount (h w : Nat) (f : Nat × Nat → Nat) : Nat :=
  (positions (h + 2) (w + 2)).countP fun p => f p ≠ 0

/-- Embedding of `visitNeighbors`: pop the FIFO queue; on a still-nonzero
cell collect its equal-valued neighbors, zero the cell and record the
label.  Structural recursion on an explicit fuel (the C++ loop runs until
the queue drains; the fuel chosen by the caller provably suffices). -/
def visitNeighbors (conn : Connexity) :
    Nat → (Nat × Nat → Nat) → List (Nat × Nat) → (Nat × Nat → Nat) → Nat →
    ((Nat × Nat → Nat) × (Nat × Nat → Nat))
  | 0, work, _, labels, _ => (work, labels)
  | _ + 1, work, [], labels, _ => (work, labels)
  | fuel + 1, work, p :: rest, labels, lab =>
    if work p ≠ 0 then
      visitNeighbors conn fuel (upd work p 0) (rest ++ getNeighbors work conn p)
        (upd labels p lab) lab
    else
      visitNeighbors conn fuel work rest labels lab

/-- Embedding of the scan of `connectedComponents`: raster order over the
interior of the padded copy; every nonzero unlabeled cell seeds a fresh
label that is spread by `visitNeighbors`. -/
def ccScan (h w : Nat) (conn : Connexity) :
    List (Nat × Nat) → (Nat × Nat → Nat) → (Nat × Nat → Nat) → Nat →
    ((Nat × Nat → Nat) × (Nat × Nat → Nat) × Nat)
  | [], work, labels, next => (work, labels, next)
  | q :: rest, work, labels, next =>
    let p := (q.1 + 1, q.2 + 1)
    if work p ≠ 0 ∧ labels p = 0 then
      let ns := getNeighbors work conn p
      let work1 := upd work p 0
      let labels1 := upd labels p next
      let st := visitNeighbors conn (9 * nzCount h w work1 + ns.length) work1 ns labels1 next
      ccScan h w conn rest st.1 st.2 (next + 1)
    else
      ccScan h w conn rest work labels next

/-- Labels and component count computed by `vp::connectedComponents` on a
nonempty image: run the scan on the padded copy, then crop the one-pixel
border off the label raster (the final memcpy loop). -/
def ccRun (I : ImgU) (conn : Connexity) : (Nat × Nat → Nat) × Nat :=
  let st := ccScan I.h I.w conn (positions I.h I.w) (padImage I) (fun _ => 0) 1
  (fun p => if p.1 < I.h ∧ p.2 < I.w then st.2.1 (p.1 + 1, p.2 + 1) else 0, st.2.2 - 1)

/-- Cropped label raster of `vp::connectedComponents`. -/
def ccLabels (I : ImgU) (conn : Connexity) : Nat × Nat → Nat := (ccRun I conn).1

/-- Component count reported by `vp::connectedComponents`. -/
def ccCount (I : ImgU) (conn : Connexity) : Nat := (ccRun I conn).2

/-- Full embedding of the call `vp::connectedComponents(I, labels,
nbComponents, connexity)`: the caller passes in the current contents of its
`labels` and `nbComponents` out-parameters; a zero-sized image returns
early and leaves them untouched. -/
def connectedComponents (I : ImgU) (labels0 : Nat × Nat → Nat) (nb0 : Int)
    (conn : Connexity) : (Nat × Nat → Nat) × Int :=
  if I.size = 0 then (labels0, nb0)
  else (ccLabels I conn, (ccCount I conn : Int))

/-! ## Two-pass labeler (`vp::connectedComponents2`)

`std::set<int>` is embedded as a sorted duplicate-free list (`begin()` is
the head, i.e. the minimum), `std::map<int, std::set<int>>` as an
association list in insertion order; since keys are created in increasing
label order, iteration order of the embedding matches the ascending
iteration order of the C++ map. -/

/-- Ordered insertion, the embedding of `std::set<int>::insert`. -/
def setIns (x : Nat) : List Nat → List Nat
  | [] => [x]
  | y :: t => if x < y then x :: y :: t else if x = y then y :: t else y :: setIns x t

/-- Set union by repeated insertion (the effect of inserting a range or of
`std::set_union` into an inserter of the left set). -/
def setUnion (a b : List Nat) : List Nat := b.foldl (fun acc x => setIns x acc) a

def mapFind (m : List (Nat × List Nat)) (k : Nat) : Option (List Nat) :=
  match m with
  | [] => none
  | (k2, v) :: t => if k = k2 then some v else mapFind t k

/-- Read through `operator[]`: a missing key behaves as a fresh empty set. -/
def mapGetD (m : List (Nat × List Nat)) (k : Nat) : List Nat := (mapFind m k).getD []

def mapSet (m : List (Nat × List Nat)) (k : Nat) (v : List Nat) :
    List (Nat × List Nat) :=
  match m with
  | [] => [(k, v)]
  | (k2, v2) :: t => if k = k2 then (k, v) :: t else (k2, v2) :: mapSet t k v

/-- Embedding of `getNeighborLabels`: the already-visited neighbors (north
row and west) holding the same pixel value and a nonzero label. -/
def getNeighborLabels (f labels : Nat × Nat → Nat) (conn : Connexity)
    (p : Nat × Nat) : List Nat :=
  let curr := f p
  let offs : List (Int × Int) :=
    match conn with
    | .four => [(-1, 0), (0, -1)]
    | .eight => [(-1, -1), (-1, 0), (-1, 1), (0, -1)]
  offs.foldl (fun s d =>
    let ni : Int := (p.1 : Int) + d.1
    let nj : Int := (p.2 : Int) + d.2
    let q := (ni.toNat, nj.toNat)
    if 0 ≤ ni ∧ 0 ≤ nj ∧ f q = curr ∧ labels q ≠ 0 then setIns (labels q) s else s) []

/-- First pass of `connectedComponents2`: raster scan assigning provisional
labels and recording label equivalences. -/
def cc2First (conn : Connexity) (padI : Nat × Nat → Nat) :
    List (Nat × Nat) → (Nat × Nat → Nat) → List (Nat × List Nat) → Nat →
    ((Nat × Nat → Nat) × List (Nat × List Nat) × Nat)
  | [], labels, m, next => (labels, m, next)
  | q :: rest, labels, m, next =>
    let p := (q.1 + 1, q.2 + 1)
    if padI p ≠ 0 then
      let s := getNeighborLabels padI labels conn p
      if s.isEmpty then
        cc2First conn padI rest (upd labels p next)
          (mapSet m next (setIns next (mapGetD m next))) (next + 1)
      else
        let small := s.headD 0
        let m2 := s.foldl (fun acc l => mapSet acc l (setUnion (mapGetD acc l) s)) m
        cc2First conn padI rest (upd labels p small) m2 next
    else cc2First conn padI rest labels m next

/-- Equivalence resolution loop of `connectedComponents2`: one ascending
pass over the map, merging into each entry the live sets of the members of
a snapshot of that entry. -/
def cc2Resolve (m0 : List (Nat × List Nat)) : List (Nat × List Nat) :=
  (m0.map (fun e => e.1)).foldl (fun m k =>
    (mapGetD m k).foldl (fun m2 x =>
      if k ≠ x then mapSet m2 k (setUnion (mapGetD m2 k) (mapGetD m2 x)) else m2) m) m0

/-- Second pass: rewrite every foreground label to the minimum of its
resolved equivalence set. -/
def cc2Second (padI : Nat × Nat → Nat) (m : List (Nat × List Nat)) :
    List (Nat × Nat) → (Nat × Nat → Nat) → (Nat × Nat → Nat)
  | [], labels => labels
  | q :: rest, labels =>
    let p := (q.1 + 1, q.2 + 1)
    if padI p ≠ 0 then
      cc2Second padI m rest (upd labels p ((mapGetD m (labels p)).headD 0))
    else cc2Second padI m rest labels

/-- Labels and count computed by `vp::connectedComponents2` on a nonempty
image.  Note the count is `current_label - 1`, the number of provisional
labels handed out in the first pass, not the number of equivalence
classes. -/
def cc2Run (I : ImgU) (conn : Connexity) : (Nat × Nat → Nat) × Nat :=
  let padI := padImage I
  let st := cc2First conn padI (positions I.h I.w) (fun _ => 0) [] 1
  let m := cc2Resolve st.2.1
  let labels := cc2Second padI m (positions I.h I.w) st.1
  (fun p => if p.1 < I.h ∧ p.2 < I.w then labels (p.1 + 1, p.2 + 1) else 0, st.2.2 - 1)

def cc2Labels (I : ImgU) (conn : Connexity) : Nat × Nat → Nat := (cc2Run I conn).1

def cc2Count (I : ImgU) (conn : Connexity) : Nat := (cc2Run I conn).2

/-- Full embedding of the call `vp::connectedComponents2(I, labels,
nbComponents, connexity)` with the caller-held out-parameters. -/
def connectedComponents2 (I : ImgU) (labels0 : Nat × Nat → Nat) (nb0 : Int)
    (conn : Connexity) : (Nat × Nat → Nat) × Int :=
  if I.size = 0 then (labels0, nb0)
  else (cc2Labels I conn, (cc2Count I conn : Int))

/-! ## Direction compass (vpDirection in vpContours.h) -/

inductive ContourType where
  | outer
  | hole
  | background
deriving DecidableEq, Repr

inductive Dir where
  | north
  | northEast
  | east
  | southEast
  | south
  | southWest
  | west
  | northWest
deriving DecidableEq, Repr

def Dir.toIdx : Dir → Nat
  | .north => 0
  | .northEast => 1
  | .east => 2
  | .southEast => 3
  | .south => 4
  | .southWest => 5
  | .west => 6
  | .northWest => 7

def Dir.ofIdx (n : Nat) : Dir :=
  match n % 8 with
  | 0 => .north
  | 1 => .northEast
  | 2 => .east
  | 3 => .southEast
  | 4 => .south
  | 5 => .southWest
  | 6 => .west
  | _ => .northWest

/-- Column offset table `dirx` of vpDirection. -/
def dirx : Dir → Int
  | .north => 0
  | .northEast => 1
  | .east => 1
  | .southEast => 1
  | .south => 0
  | .southWest => -1
  | .west => -1
  | .northWest => -1

/-- Row offset table `diry` of vpDirection. -/
def diry : Dir → Int
  | .north => -1
  | .northEast => -1
  | .east => 0
  | .southEast => 1
  | .south => 1
  | .southWest => 1
  | .west => 0
  | .northWest => -1

def Dir.clockwise (d : Dir) : Dir := Dir.ofIdx ((d.toIdx + 1) % 8)

def Dir.counterClockwise (d : Dir) : Dir :=
  Dir.ofIdx (if d.toIdx = 0 then 7 else d.toIdx - 1)

def allDirs : List Dir :=
  [.north, .northEast, .east, .southEast, .south, .southWest, .west, .northWest]

/-! ## Int images (the working raster `vpImage<int>` of contour tracing) -/

structure ImgI where
  h : Nat
  w : Nat
  pix : Nat × Nat → Int

/-- Bounds-guarded read; all reads performed by the embedded code are in
bounds, the guard only makes the function total. -/
def ImgI.get (I : ImgI) (i j : Nat) : Int :=
  if i < I.h ∧ j < I.w then I.pix (i, j) else 0

def ImgI.set (I : ImgI) (i j : Nat) (v : Int) : ImgI :=
  { I with pix := fun q => if q = (i, j) then v else I.pix q }

/-- Read at an image point whose coordinates are cast to unsigned, as in
`(unsigned int) point.get_i()`. -/
def ImgI.getP (I : ImgI) (p : Int × Int) : Int := I.get p.1.toNat p.2.toNat

def UINT32 : Nat := 4294967296

/-- Cast of an integer to a 32-bit `unsigned int`. -/
def toU32 (x : Int) : Nat := (x % (UINT32 : Int)).toNat

/-- Embedding of `vpDirection::active`: the neighbor coordinate in this
direction if it is in bounds after the unsigned casts (`yy` is
`toU32 (i + diry)`, `xx` is `toU32 (j + dirx)`) and its stored int pixel,
truncated to `unsigned char` (mod 256), is nonzero; the sentinel (-1,-1)
otherwise. -/
def Dir.active (d : Dir) (I : ImgI) (p : Int × Int) : Int × Int :=
  if toU32 (p.2 + dirx d) ≥ I.w ∨ toU32 (p.1 + diry d) ≥ I.h then (-1, -1)
  else if (I.get (toU32 (p.1 + diry d)) (toU32 (p.2 + dirx d))) % 256 ≠ 0 then
    ((toU32 (p.1 + diry d) : Int), (toU32 (p.2 + dirx d) : Int))
  else (-1, -1)

/-! ## Border following (vpContour.cpp)

Image points are integral during tracing, so `vpImagePoint` is embedded as
a pair of integers; the epsilon comparisons of doubles in the part_003
variant of `fromTo` coincide with exact equality on integral values, so
both variants share one embedding. -/

/-- Embedding of `fromTo` / the direction between two adjacent-or-distant
points; `none` is the `return false` on identical points. -/
def fromTo (a b : Int × Int) : Option Dir :=
  if a = b then none
  else if a.1 = b.1 then some (if a.2 < b.2 then .east else .west)
  else if a.1 < b.1 then
    some (if a.2 = b.2 then .south else if a.2 < b.2 then .southEast else .southWest)
  else
    some (if a.2 = b.2 then .north else if a.2 < b.2 then .northEast else .northWest)

/-- Embedding of `crossesEastBorder`. -/
def crossesEastBorder (I : ImgI) (checked : Dir → Bool) (p : Int × Int) : Bool :=
  match fromTo p (p.1, p.2 + 1) with
  | none => false
  | some d => decide (I.getP p ≠ 0) && (decide (toU32 p.2 = I.w - 1) || checked d)

/-- Embedding of `addContourPoint`: push the point and mark the cell with
the signed border id. -/
def addContourPoint (I : ImgI) (pts : List (Int × Int)) (p : Int × Int)
    (checked : Dir → Bool) (nbd : Int) : ImgI × List (Int × Int) :=
  let pts2 := pts ++ [p]
  if crossesEastBorder I checked p then (I.set p.1.toNat p.2.toNat (-nbd), pts2)
  else if I.getP p = 1 then (I.set p.1.toNat p.2.toNat nbd, pts2)
  else (I, pts2)

/-- The initial clockwise probe of `followBorder` (stops when the rotating
direction is back at the start direction; at most 7 probes, fuel 8). -/
def cwSweep (I : ImgI) (ij : Int × Int) : Nat → Dir → Dir → Option (Int × Int)
  | 0, _, _ => none
  | f + 1, trace, stop =>
    if trace = stop then none
    else
      let ap := trace.active I ij
      if 0 ≤ ap.1 ∧ 0 ≤ ap.2 then some ap
      else cwSweep I ij f trace.clockwise stop

/-- The counter-clockwise neighborhood search of the walk, with the
`checked` bookkeeping; `none` is the part_003 `problem` exit (all eight
directions checked without an active pixel).  At most 8 probes happen
before every direction is checked, so the fuel 16 used by callers cannot
run out before the loop exits. -/
def probeLoop (I : ImgI) (p : Int × Int) :
    Nat → (Dir → Bool) → Dir → (Option (Int × Int) × (Dir → Bool))
  | 0, checked, _ => (none, checked)
  | f + 1, checked, trace =>
    let i4 := trace.active I p
    if 0 ≤ i4.1 ∧ 0 ≤ i4.2 then (some i4, checked)
    else
      let checked2 := fun d => if d = trace then true else checked d
      if allDirs.all (fun d => checked2 d) then (none, checked2)
      else probeLoop I p f checked2 trace.counterClockwise

inductive ExtractErr where
  | invariantViolation
  | nullParent
  | nullDeref
  | fuelOut
deriving DecidableEq, Repr

/-- The wall-follower walk of the part_003 `followBorder` (the
`while (true)` loop), on explicit fuel.  `invariantViolation` is the
`vpException` thrown when `fromTo` is given identical points;
`(false, ...)` is the `problem` early return whose partial contour the
caller discards. -/
def walk3 (ij i1j1 : Int × Int) (nbd : Int) :
    Nat → ImgI → Int × Int → Int × Int → List (Int × Int) →
    Except ExtractErr (Bool × ImgI × List (Int × Int))
  | 0, _, _, _, _ => .error .fuelOut
  | f + 1, I, i2j2, i3j3, pts =>
    match fromTo i3j3 i2j2 with
    | none => .error .invariantViolation
    | some dir =>
      let pr := probeLoop I i3j3 16 (fun _ => false) dir.counterClockwise
      match pr.1 with
      | none => .ok (false, I, pts)
      | some i4j4 =>
        let ap := addContourPoint I pts i3j3 pr.2 nbd
        if i4j4 = ij ∧ i3j3 = i1j1 then .ok (true, ap.1, ap.2)
        else walk3 ij i1j1 nbd f ap.1 i3j3 i4j4 ap.2

/-- Embedding of the part_003 `followBorder` (the variant returning a
success flag).  A failed initial sweep returns `false` with no points. -/
def followBorder3 (I : ImgI) (ij fm : Int × Int) (nbd : Int) (fuel : Nat) :
    Except ExtractErr (Bool × ImgI × List (Int × Int)) :=
  match fromTo ij fm with
  | none => .error .invariantViolation
  | some dir =>
    match cwSweep I ij 8 dir.clockwise dir with
    | none => .ok (false, I, [])
    | some i1j1 => walk3 ij i1j1 nbd fuel I i1j1 ij []

/-- The walk of the part_002 `followBorder` (returning no flag): its inner
neighborhood search has no `problem` exit, so a neighborhood with no
active pixel loops forever in the C++, embedded as `fuelOut`. -/
def walk2 (ij i1j1 : Int × Int) (nbd : Int) :
    Nat → ImgI → Int × Int → Int × Int → List (Int × Int) →
    Except ExtractErr (ImgI × List (Int × Int))
  | 0, _, _, _, _ => .error .fuelOut
  | f + 1, I, i2j2, i3j3, pts =>
    match fromTo i3j3 i2j2 with
    | none => .error .invariantViolation
    | some dir =>
      let pr := probeLoop I i3j3 16 (fun _ => false) dir.counterClockwise
      match pr.1 with
      | none => .error .fuelOut
      | some i4j4 =>
        let ap := addContourPoint I pts i3j3 pr.2 nbd
        if i4j4 = ij ∧ i3j3 = i1j1 then .ok (ap.1, ap.2)
        else walk2 ij i1j1 nbd f ap.1 i3j3 i4j4 ap.2

/-- Embedding of the part_002 `followBorder`: a failed initial sweep is the
early `return` that leaves the contour without points. -/
def followBorder2 (I : ImgI) (ij fm : Int × Int) (nbd : Int) (fuel : Nat) :
    Except ExtractErr (ImgI × List (Int × Int)) :=
  match fromTo ij fm with
  | none => .error .invariantViolation
  | some dir =>
    match cwSweep I ij 8 dir.clockwise dir with
    | none => .ok (I, [])
    | some i1j1 => walk2 ij i1j1 nbd fuel I i1j1 ij []

/-- Embedding of `isOuterBorderStart`. -/
def isOuterBorderStart (I : ImgI) (i j : Nat) : Bool :=
  decide (I.get i j = 1) && (decide (j = 0) || decide (I.get i (j - 1) = 0))

/-- Embedding of `isHoleBorderStart`. -/
def isHoleBorderStart (I : ImgI) (i j : Nat) : Bool :=
  decide (1 ≤ I.get i j) && (decide (j = I.w - 1) || decide (I.get i (j + 1) = 0))

/-! ## Contour trees

`vpContour` objects are embedded as an arena of nodes addressed by
allocation index; `m_parent` is an optional index, `m_children` a list of
indices.  The root is always index 0.  C++ `delete`d rollback nodes stay
in the arena but are detached from the tree. -/

structure Node where
  ctype : ContourType
  parent : Option Nat
  children : List Nat
  npoints : List (Int × Int)
deriving DecidableEq, Repr

/-- A default-constructed `vpContour`: hole type, no parent, no children,
no points. -/
def Node.fresh : Node :=
  { ctype := .hole, parent := none, children := [], npoints := [] }

def nodeAt (a : List Node) (k : Nat) : Node := a.getD k Node.fresh

def upNode (a : List Node) (k : Nat) (f : Node → Node) : List Node :=
  a.set k (f (nodeAt a k))

/-- Embedding of `vpContour::setParent`: store the back-reference and push
the child into the parent's list. -/
def setParent (a : List Node) (c p : Nat) : List Node :=
  upNode (upNode a c (fun n => { n with parent := some p })) p
    (fun n => { n with children := n.children ++ [c] })

/-- `setParent` through a possibly null parent pointer: the root's
`m_parent` was never initialised, so dereferencing it is undefined
behaviour in the C++, embedded as the `nullParent` error. -/
def setParentE (a : List Node) (c : Nat) (pp : Option Nat) :
    Except ExtractErr (List Node) :=
  match pp with
  | some p => .ok (setParent a c p)
  | none => .error .nullParent

/-- Modelled from the spec: `vpContour::removeParent` is called by the
part_003 rollback but its definition is not among the source files; the
spec says the rollback discards the contour by "removing it from its
parent", so this removes the child link and clears the back-reference (a
null argument removes nothing). -/
def removeParent (a : List Node) (c : Nat) (pp : Option Nat) : List Node :=
  match pp with
  | none => a
  | some p =>
    upNode (upNode a c (fun n => { n with parent := none })) p
      (fun n => { n with children := n.children.filter (fun x => x ≠ c) })

def bmapFind (m : List (Int × Nat)) (k : Int) : Option Nat :=
  match m with
  | [] => none
  | (k2, v) :: t => if k = k2 then some v else bmapFind t k

def bmapSet (m : List (Int × Nat)) (k : Int) (v : Nat) : List (Int × Nat) :=
  match m with
  | [] => [(k, v)]
  | (k2, v2) :: t => if k = k2 then (k, v) :: t else (k2, v2) :: bmapSet t k v

structure ExtractState where
  img : ImgI
  nbd : Int
  lnbd : Int
  arena : List Node
  bmap : List (Int × Nat)

/-! ## Raster scan of the part_003 `extractContours` -/

/-- The `removeParent` switch of the rollback for an outer start. -/
def rollbackHalfOuter (x : List Node) (b bp : Nat) : List Node :=
  match (nodeAt x bp).ctype with
  | .outer => removeParent x b (nodeAt x bp).parent
  | .hole => removeParent x b (some bp)
  | .background => x

/-- The `removeParent` switch of the rollback for a hole start. -/
def rollbackHalfHole (x : List Node) (b bp : Nat) : List Node :=
  match (nodeAt x bp).ctype with
  | .outer => removeParent x b (some bp)
  | .hole => removeParent x b (nodeAt x bp).parent
  | .background => x

/-- The arena after the rollback of a failed border start: points cleared
and, per the two switches of the part_003 failure branch, the child link
to the parent undone (the node itself, `delete`d in the C++, stays in the
arena detached). -/
def rollbackArena (a : List Node) (b bp : Nat) (isOut isHol : Bool) : List Node :=
  let a1 := upNode a b (fun n => { n with npoints := [] })
  let a2 := if isOut then rollbackHalfOuter a1 b bp else a1
  if isHol then rollbackHalfHole a2 b bp else a2

/-- The tail of a border start in the part_003 scan once `borderPrime` was
found: run `followBorder`; on success record the border (seeding a
one-point contour if the trace returned no points), on failure mark the
seed, clear the points and undo the parent link. -/
def traceRecord3 (wf : Nat) (s : ExtractState) (i j : Nat) (fm : Int × Int)
    (b bp : Nat) (isOut isHol : Bool) : Except ExtractErr ExtractState :=
  match followBorder3 s.img ((i : Int), (j : Int)) fm s.nbd wf with
  | .error e => .error e
  | .ok (true, img, pts) =>
    let sp := if pts.isEmpty then (img.set i j (-s.nbd), [((i : Int), (j : Int))])
              else (img, pts)
    .ok { s with img := sp.1,
                 arena := upNode s.arena b (fun n => { n with npoints := sp.2 }),
                 bmap := bmapSet s.bmap s.nbd b }
  | .ok (false, img, _) =>
    .ok { s with img := img.set i j (-s.nbd),
                 arena := rollbackArena s.arena b bp isOut isHol }

/-- One cell of the part_003 raster scan. -/
def extractStep3 (wf : Nat) (s : ExtractState) (i j : Nat) :
    Except ExtractErr ExtractState :=
  let fji : Int := s.img.get i j
  let isOut := isOuterBorderStart s.img i j
  let isHol := isHoleBorderStart s.img i j
  let r : Except ExtractErr ExtractState :=
    if isOut || isHol then
      let b := s.arena.length
      let a0 := s.arena ++ [Node.fresh]
      if isOut then
        let s1 := { s with nbd := s.nbd + 1 }
        let a1 := upNode a0 b (fun n => { n with ctype := .outer })
        match bmapFind s.bmap s.lnbd with
        | some bp =>
          let pe : Except ExtractErr (List Node) :=
            match (nodeAt a1 bp).ctype with
            | .outer => setParentE a1 b (nodeAt a1 bp).parent
            | .hole => setParentE a1 b (some bp)
            | .background => .ok a1
          match pe with
          | .error e => .error e
          | .ok a2 =>
            traceRecord3 wf { s1 with arena := a2 } i j ((i : Int), (j : Int) - 1)
              b bp isOut isHol
        | none => .ok { s1 with arena := a1 }
      else
        let lnbd2 := if 1 < fji then fji else s.lnbd
        let s1 := { s with nbd := s.nbd + 1, lnbd := lnbd2 }
        match bmapFind s.bmap lnbd2 with
        | some bp =>
          let a1 := upNode a0 b (fun n => { n with ctype := .hole })
          let pe : Except ExtractErr (List Node) :=
            match (nodeAt a1 bp).ctype with
            | .outer => setParentE a1 b (some bp)
            | .hole => setParentE a1 b (nodeAt a1 bp).parent
            | .background => .ok a1
          match pe with
          | .error e => .error e
          | .ok a2 =>
            traceRecord3 wf { s1 with arena := a2 } i j ((i : Int), (j : Int) + 1)
              b bp isOut isHol
        | none => .ok { s1 with arena := a0 }
    else .ok s
  match r with
  | .error e => .error e
  | .ok s2 => .ok (if fji ≠ 0 ∧ fji ≠ 1 then { s2 with lnbd := (fji.natAbs : Int) } else s2)

def extractRowCells3 (wf i : Nat) :
    List Nat → ExtractState → Except ExtractErr ExtractState
  | [], s => .ok s
  | j :: rest, s =>
    match extractStep3 wf s i j with
    | .error e => .error e
    | .ok s2 => extractRowCells3 wf i rest s2

/-- Row loop: `lnbd` is reset to 1 at every row start. -/
def extractRows3 (wf : Nat) (cols : List Nat) :
    List Nat → ExtractState → Except ExtractErr ExtractState
  | [], s => .ok s
  | i :: rest, s =>
    match extractRowCells3 wf i cols { s with lnbd := 1 } with
    | .error e => .error e
    | .ok s2 => extractRows3 wf cols rest s2

/-- The working `vpImage<int>` copied from the caller's image. -/
def intCopy (I : ImgU) : ImgI :=
  { h := I.h, w := I.w, pix := fun p => (I.get p.1 p.2 : Int) }

/-- The initial scan state of the part_003 variant: the root contour is
created as a hole contour ("By default the root contour is a hole
contour") and registered under border id 1. -/
def initState3 (I : ImgU) : ExtractState :=
  { img := intCopy I, nbd := 1, lnbd := 1,
    arena := [{ ctype := .hole, parent := none, children := [], npoints := [] }],
    bmap := [(1, 0)] }

/-- The full part_003 scan on a nonempty image, returning the node arena
(the tree is everything reachable from the root at index 0). -/
def extractRun3 (I : ImgU) (wf : Nat) : Except ExtractErr (List Node) :=
  match extractRows3 wf (List.range I.w) (List.range I.h) (initState3 I) with
  | .error e => .error e
  | .ok s => .ok s.arena

/-- Embedding of the part_003 call `vp::extractContours(I, contour)`: a
zero-sized image returns early leaving the caller's contour `c0`
untouched; otherwise the caller's contour becomes a copy of the root. -/
def extractContours3 (I : ImgU) (c0 : Node) (wf : Nat) :
    Except ExtractErr (Node × List Node) :=
  if I.size = 0 then .ok (c0, [])
  else
    match extractRun3 I wf with
    | .error e => .error e
    | .ok a => .ok (nodeAt a 0, a)

/-! ## Raster scan of the part_002 `extractContours` -/

/-- The tail of a border start in the part_002 scan: trace, seed a
one-point contour if no point was collected, and always record the border
in the map. -/
def traceRecord2 (wf : Nat) (s : ExtractState) (i j : Nat) (fm : Int × Int)
    (b : Nat) : Except ExtractErr ExtractState :=
  match followBorder2 s.img ((i : Int), (j : Int)) fm s.nbd wf with
  | .error e => .error e
  | .ok (img, pts) =>
    let sp := if pts.isEmpty then (img.set i j (-s.nbd), [((i : Int), (j : Int))])
              else (img, pts)
    .ok { s with img := sp.1,
                 arena := upNode s.arena b (fun n => { n with npoints := sp.2 }),
                 bmap := bmapSet s.bmap s.nbd b }

/-- One cell of the part_002 raster scan.  Here `fji` is read into an
`unsigned char`, truncating marked int values mod 256, and the map is read
through `operator[]` without a guard: a missing key yields a null
`vpContour*` whose dereference is undefined behaviour, embedded as
`nullDeref`. -/
def extractStep2 (wf : Nat) (s : ExtractState) (i j : Nat) :
    Except ExtractErr ExtractState :=
  let fji : Int := (s.img.get i j) % 256
  let isOut := isOuterBorderStart s.img i j
  let isHol := isHoleBorderStart s.img i j
  let r : Except ExtractErr ExtractState :=
    if isOut || isHol then
      let b := s.arena.length
      let a0 := s.arena ++ [Node.fresh]
      if isOut then
        let s1 := { s with nbd := s.nbd + 1 }
        let a1 := upNode a0 b (fun n => { n with ctype := .outer })
        match bmapFind s.bmap s.lnbd with
        | none => .error .nullDeref
        | some bp =>
          let pe : Except ExtractErr (List Node) :=
            match (nodeAt a1 bp).ctype with
            | .outer => setParentE a1 b (nodeAt a1 bp).parent
            | .hole => .ok (setParent a1 b bp)
            | .background => .ok (setParent a1 b bp)
          match pe with
          | .error e => .error e
          | .ok a2 =>
            traceRecord2 wf { s1 with arena := a2 } i j ((i : Int), (j : Int) - 1) b
      else
        let lnbd2 := if 1 < fji then fji else s.lnbd
        let s1 := { s with nbd := s.nbd + 1, lnbd := lnbd2 }
        match bmapFind s.bmap lnbd2 with
        | none => .error .nullDeref
        | some bp =>
          let a1 := upNode a0 b (fun n => { n with ctype := .hole })
          let pe : Except ExtractErr (List Node) :=
            match (nodeAt a1 bp).ctype with
            | .outer => .ok (setParent a1 b bp)
            | .hole => setParentE a1 b (nodeAt a1 bp).parent
            | .background => setParentE a1 b (nodeAt a1 bp).parent
          match pe with
          | .error e => .error e
          | .ok a2 =>
            traceRecord2 wf { s1 with arena := a2 } i j ((i : Int), (j : Int) + 1) b
    else .ok s
  match r with
  | .error e => .error e
  | .ok s2 => .ok (if fji ≠ 0 ∧ fji ≠ 1 then { s2 with lnbd := fji } else s2)

def extractRowCells2 (wf i : Nat) :
    List Nat → ExtractState → Except ExtractErr ExtractState
  | [], s => .ok s
  | j :: rest, s =>
    match extractStep2 wf s i j with
    | .error e => .error e
    | .ok s2 => extractRowCells2 wf i rest s2

def extractRows2 (wf : Nat) (cols : List Nat) :
    List Nat → ExtractState → Except ExtractErr ExtractState
  | [], s => .ok s
  | i :: rest, s =>
    match extractRowCells2 wf i cols { s with lnbd := 1 } with
    | .error e => .error e
    | .ok s2 => extractRows2 wf cols rest s2

/-- The initial scan state of the part_002 variant: its root contour is
created as a background contour. -/
def initState2 (I : ImgU) : ExtractState :=
  { img := intCopy I, nbd := 1, lnbd := 1,
    arena := [{ ctype := .background, parent := none, children := [], npoints := [] }],
    bmap := [(1, 0)] }

def extractRun2 (I : ImgU) (wf : Nat) : Except ExtractErr (List Node) :=
  match extractRows2 wf (List.range I.w) (List.range I.h) (initState2 I) with
  | .error e => .error e
  | .ok s => .ok s.arena

/-- Embedding of the part_002 call `vp::extractContours(I, contour)`. -/
def extractContours2 (I : ImgU) (c0 : Node) (wf : Nat) :
    Except ExtractErr (Node × List Node) :=
  if I.size = 0 then .ok (c0, [])
  else
    match extractRun2 I wf with
    | .error e => .error e
    | .ok a => .ok (nodeAt a 0, a)

/-! ## Specification-side predicates

The mathematical notions the claims speak about: pixel adjacency under a
connectivity mode, same-value paths, and reachability inside a contour
tree.  These are written from the claims, to be proved about the embedded
code. -/

/-- 4-neighborhood adjacency of raster cells. -/
def adj4 (a b : Nat × Nat) : Prop :=
  (a.1 = b.1 ∧ (a.2 + 1 = b.2 ∨ b.2 + 1 = a.2)) ∨
  (a.2 = b.2 ∧ (a.1 + 1 = b.1 ∨ b.1 + 1 = a.1))

/-- 8-neighborhood adjacency of raster cells. -/
def adj8 (a b : Nat × Nat) : Prop :=
  adj4 a b ∨ ((a.1 + 1 = b.1 ∨ b.1 + 1 = a.1) ∧ (a.2 + 1 = b.2 ∨ b.2 + 1 = a.2))

def adjC : Connexity → Nat × Nat → Nat × Nat → Prop
  | .four => adj4
  | .eight => adj8

instance : ∀ (c : Connexity) (a b : Nat × Nat), Decidable (adjC c a b) := by
  intro c a b
  cases c <;> (unfold adjC adj8 adj4; infer_instance)

/-- One step of a same-value path: adjacent cells holding the same nonzero
value of the pixel map `v`. -/
def sameValStep (v : Nat × Nat → Nat) (conn : Connexity) (a b : Nat × Nat) : Prop :=
  adjC conn a b ∧ v a = v b ∧ v a ≠ 0

/-- Two cells are connected when a same-value path joins them. -/
def connectedVia (v : Nat × Nat → Nat) (conn : Connexity) :
    Nat × Nat → Nat × Nat → Prop :=
  Relation.ReflTransGen (sameValStep v conn)

/-- Pixel map of the caller image (zero outside the raster). -/
def vOrig (I : ImgU) : Nat × Nat → Nat := fun p => I.get p.1 p.2

deriving instance DecidableEq for Except

/-- A parent-to-child edge of the contour arena. -/
def childEdge (a : List Node) (x y : Nat) : Prop := y ∈ (nodeAt a x).children

instance (a : List Node) (x y : Nat) : Decidable (childEdge a x y) := by
  unfold childEdge
  infer_instance

/-- A node belongs to the returned contour tree when the root reaches it
through child edges. -/
def treeReach (a : List Node) (c : Nat) : Prop :=
  Relation.ReflTransGen (childEdge a) 0 c

/-! ## Concrete inputs used by counterexamples and witnesses -/

/-- Two rows, three columns; one 4-connected component whose two top cells
meet only through the bottom row, forcing a label merge in the two-pass
labeler. -/
def imgC1 : ImgU := { h := 2, w := 3, data := [1, 0, 1, 1, 1, 1] }

/-- A single row with one isolated foreground pixel. -/
def imgRow101 : ImgU := { h := 1, w := 3, data := [0, 1, 0] }

/-- A zero-sized image (height 0). -/
def imgEmpty03 : ImgU := { h := 0, w := 3, data := [] }

def imgEmpty00 : ImgU := { h := 0, w := 0, data := [] }

/-- A one-pixel background image. -/
def imgOneZero : ImgU := { h := 1, w := 1, data := [0] }

/-- A 3 by 3 foreground ring around one background pixel. -/
def annulus3 : ImgU := { h := 3, w := 3, data := [1, 1, 1, 1, 0, 1, 1, 1, 1] }

/-- A ring whose hole contains a two-pixel foreground bar: the bar's outer
contour is nested inside the hole contour. -/
def barInAnnulus : ImgU :=
  { h := 5, w := 7, data :=
    [1, 1, 1, 1, 1, 1, 1,
     1, 0, 0, 0, 0, 0, 1,
     1, 0, 1, 1, 0, 0, 1,
     1, 0, 0, 0, 0, 0, 1,
     1, 1, 1, 1, 1, 1, 1] }

/-- The arena computed by the part_003 scan on `barInAnnulus`. -/
def barArena : List Node :=
  [{ ctype := .hole, parent := none, children := [1], npoints := [] },
   { ctype := .outer, parent := some 0, children := [2], npoints :=
      [(0, 0), (1, 0), (2, 0), (3, 0), (4, 0), (4, 1), (4, 2), (4, 3), (4, 4),
       (4, 5), (4, 6), (3, 6), (2, 6), (1, 6), (0, 6), (0, 5), (0, 4), (0, 3),
       (0, 2), (0, 1)] },
   { ctype := .hole, parent := some 1, children := [3], npoints :=
      [(1, 0), (0, 1), (0, 2), (0, 3), (0, 4), (0, 5), (1, 6), (2, 6), (3, 6),
       (4, 5), (4, 4), (4, 3), (4, 2), (4, 1), (3, 0), (2, 0)] },
   { ctype := .outer, parent := some 2, children := [], npoints := [(2, 2), (2, 3)] }]

/-- The arena computed by the part_003 scan on `annulus3`. -/
def annulus3Arena : List Node :=
  [{ ctype := .hole, parent := none, children := [1], npoints := [] },
   { ctype := .outer, parent := some 0, children := [2], npoints :=
      [(0, 0), (1, 0), (2, 0), (2, 1), (2, 2), (1, 2), (0, 2), (0, 1)] },
   { ctype := .hole, parent := some 1, children := [], npoints :=
      [(1, 0), (0, 1), (1, 2), (2, 1)] }]

/-- The arena computed by the part_002 scan on `annulus3` (background-typed
root, otherwise the same tree). -/
def annulus2Arena : List Node :=
  [{ ctype := .background, parent := none, children := [1], npoints := [] },
   { ctype := .outer, parent := some 0, children := [2], npoints :=
      [(0, 0), (1, 0), (2, 0), (2, 1), (2, 2), (1, 2), (0, 2), (0, 1)] },
   { ctype := .hole, parent := some 1, children := [], npoints :=
      [(1, 0), (0, 1), (1, 2), (2, 1)] }]

/-! ## Arena invariants of the contour scans

The structural invariant maintained by the part_003 scan: the root is
hole-typed, no node is background-typed, every parent link and child edge
alternates between outer and hole (an outer contour hangs below a
hole-typed node — the root or a hole contour — and a hole contour hangs
below an outer contour), and all indices stay inside the arena. -/

structure ArenaInv3 (a : List Node) : Prop where
  root : (nodeAt a 0).ctype = .hole
  noBg : ∀ k, (nodeAt a k).ctype ≠ .background
  parOuter : ∀ k q, (nodeAt a k).ctype = .outer → (nodeAt a k).parent = some q →
    (nodeAt a q).ctype = .hole
  parHole : ∀ k q, (nodeAt a k).ctype = .hole → (nodeAt a k).parent = some q →
    (nodeAt a q).ctype = .outer
  edgeOuter : ∀ p c, c ∈ (nodeAt a p).children → (nodeAt a c).ctype = .outer →
    (nodeAt a p).ctype = .hole
  edgeHole : ∀ p c, c ∈ (nodeAt a p).children → (nodeAt a c).ctype = .hole →
    (nodeAt a p).ctype = .outer
  childLt : ∀ p c, c ∈ (nodeAt a p).children → c < a.length
  parLt : ∀ k q, (nodeAt a k).parent = some q → q < a.length
  len1 : 1 ≤ a.length

/-- The part_003 scan-state invariant: the arena invariant plus all border
map entries pointing into the arena. -/
structure StateInv3 (s : ExtractState) : Prop where
  arena : ArenaInv3 s.arena
  mapLt : ∀ e ∈ s.bmap, e.2 < s.arena.length

/-- The corresponding invariant for the part_002 scan, whose root is
background-typed; every other node is outer or hole, outer contours hang
below the root or a hole contour, hole contours below an outer contour. -/
structure ArenaInv2 (a : List Node) : Prop where
  root : (nodeAt a 0).ctype = .background
  bgRoot : ∀ k, (nodeAt a k).ctype = .background → k = 0
  rootPar : (nodeAt a 0).parent = none
  parOuter : ∀ k q, (nodeAt a k).ctype = .outer → (nodeAt a k).parent = some q →
    (nodeAt a q).ctype = .hole ∨ q = 0
  parHole : ∀ k q, (nodeAt a k).ctype = .hole → (nodeAt a k).parent = some q →
    (nodeAt a q).ctype = .outer
  edgeOuter : ∀ p c, c ∈ (nodeAt a p).children → (nodeAt a c).ctype = .outer →
    (nodeAt a p).ctype = .hole ∨ p = 0
  edgeHole : ∀ p c, c ∈ (nodeAt a p).children → (nodeAt a c).ctype = .hole →
    (nodeAt a p).ctype = .outer
  childLt : ∀ p c, c ∈ (nodeAt a p).children → c < a.length
  parLt : ∀ k q, (nodeAt a k).parent = some q → q < a.length
  len1 : 1 ≤ a.length

structure StateInv2 (s : ExtractState) : Prop where
  arena : ArenaInv2 s.arena
  mapLt : ∀ e ∈ s.bmap, e.2 < s.arena.length

/-! ## Invariants of the expansion labeler

The state invariants under which the breadth-first expansion of
`connectedComponents` is proved correct, phrased against the untouched
pixel map `v` (the padded copy at scan start): `work` is `v` with the
visited cells zeroed, labeled cells are consumed foreground cells,
finished labels are closed under same-value adjacency and connected to a
common seed, and during a single expansion the frontier of the current
label sits in the queue. -/

structure BfsInv (conn : Connexity) (v work labels : Nat × Nat → Nat)
    (Q : List (Nat × Nat)) (lab : Nat) (seed : Nat × Nat) : Prop where
  sub : ∀ c, work c = v c ∨ work c = 0
  labFg : ∀ c, labels c ≠ 0 → v c ≠ 0 ∧ work c = 0
  consLab : ∀ c, v c ≠ 0 → work c = 0 → labels c ≠ 0
  labMax : ∀ c, labels c ≤ lab
  oldClosed : ∀ c c', labels c ≠ 0 → labels c ≠ lab → sameValStep v conn c c' →
    labels c' = labels c
  oldSound : ∀ c c', labels c = labels c' → labels c ≠ 0 → labels c ≠ lab →
    connectedVia v conn c c'
  labConn : ∀ c, labels c = lab → connectedVia v conn seed c
  queueConn : ∀ c ∈ Q, work c = 0 ∨ connectedVia v conn seed c
  frontier : ∀ c c', labels c = lab → sameValStep v conn c c' →
    labels c' = lab ∨ c' ∈ Q

/-- The scan-level invariant of `connectedComponents`, holding between two
seed expansions: every assigned label class is closed under same-value
adjacency and internally connected, and labels stay below the next fresh
label. -/
structure ScanInv (conn : Connexity) (v work labels : Nat × Nat → Nat)
    (next : Nat) : Prop where
  sub : ∀ c, work c = v c ∨ work c = 0
  labFg : ∀ c, labels c ≠ 0 → v c ≠ 0 ∧ work c = 0
  consLab : ∀ c, v c ≠ 0 → work c = 0 → labels c ≠ 0
  closed : ∀ c c', labels c ≠ 0 → sameValStep v conn c c' → labels c' = labels c
  sound : ∀ c c', labels c = labels c' → labels c ≠ 0 → connectedVia v conn c c'
  labLt : ∀ c, labels c < next
  nextPos : 1 ≤ next

/-! ## The copy-on-entry loops

The literal statement-by-statement embeddings of the loops that copy the
caller's raster into the freshly allocated working image: the flat
`bitmap` copy of the part_003 `extractContours` and the copy-and-add-border
loop (with its `memcpy` row copies) shared by `connectedComponents` and
`connectedComponents2`.  The scan embeddings above use the pointwise
descriptions `intCopy` and `padImage`; the theorems below prove the loops
produce exactly those rasters. -/

/-- The part_003 copy loop `for cpt < size: I.bitmap[cpt] =
I_original.bitmap[cpt]` over the freshly allocated `vpImage<int>`,
flat row-major. -/
def intCopyLoop (I : ImgU) : List Int :=
  (List.range (I.h * I.w)).foldl
    (fun acc cpt => acc.set cpt ((I.data.getD cpt 0 : Nat) : Int))
    (List.replicate (I.h * I.w) 0)

/-- The border-row zero fill `for j < w+2: I_copy[i][j] = 0`. -/
def padZeroRow (I : ImgU) (i : Nat) (f : Nat × Nat → Nat) : Nat × Nat → Nat :=
  (List.range (I.w + 2)).foldl (fun g j => upd g (i, j) 0) f

/-- The row `memcpy(I_copy[i]+1, I[i-1], w)` cell by cell. -/
def padCopyRow (I : ImgU) (i : Nat) (f : Nat × Nat → Nat) : Nat × Nat → Nat :=
  (List.range I.w).foldl (fun g j => upd g (i, j + 1) (I.get (i - 1) j)) f

/-- One iteration of the copy-and-add-border loop: border rows are zero
filled, interior rows get a zero west cell, the `memcpy` of the original
row, and a zero east cell. -/
def padRow (I : ImgU) (i : Nat) (f : Nat × Nat → Nat) : Nat × Nat → Nat :=
  if i = 0 ∨ i = I.h + 1 then padZeroRow I i f
  else upd (padCopyRow I i (upd f (i, 0) 0)) (i, I.w + 1) 0

/-- The full copy-and-add-border loop of the labelers. -/
def padLoop (I : ImgU) : Nat × Nat → Nat :=
  (List.range (I.h + 2)).foldl (fun f i => padRow I i f) (fun _ => 0)

/-! # Claim theorems -/

theorem mem_positions {h w : Nat} {p : Nat × Nat} :
    p ∈ positions h w ↔ p.1 < h ∧ p.2 < w := by
  cases p with
  | mk i j =>
    simp [positions, List.mem_flatMap, List.mem_map, List.mem_range]

theorem positions_nodup (h w : Nat) : (positions h w).Nodup := by
  unfold positions
  refine List.nodup_flatMap.2 ⟨?_, ?_⟩
  · intro i _
    exact (List.nodup_range w).map (fun a b hab => by simpa using hab)
  · apply List.Pairwise.imp ?_ (List.pairwise_lt_range h)
    intro a b hab
    intro x hx hy
    simp only [Function.onFun, List.mem_map, List.mem_range] at hx hy
    obtain ⟨j1, _, rfl⟩ := hx
    obtain ⟨j2, _, h2⟩ := hy
    exact absurd (congrArg Prod.fst h2.symm) (by simp [Nat.ne_of_lt hab])


/-- **C1** (failing-input evaluation).  On `imgC1` under 4-connectivity the
expansion labeler and the two-pass labeler compute the same induced
partition (here even identical label rasters), yet `connectedComponents`
reports 1 component while `connectedComponents2` reports 2: the two-pass
variant returns `current_label - 1`, the number of provisional labels of
its first pass, not the number of resolved equivalence classes its own
documentation ("Number of connected components") promises. -/
theorem c1_count_divergence :
    ccCount imgC1 .four = 1 ∧ cc2Count imgC1 .four = 2 ∧
    (∀ p ∈ positions 2 3, cc2Labels imgC1 .four p = ccLabels imgC1 .four p) := by
  refine ⟨by decide, by decide, by decide⟩

/-- **C4** (counterexample).  On a zero-sized image all three operations
return early without touching the caller's out-parameters, so the
component count is whatever the caller left there (5 here, not 0) and the
caller's contour keeps whatever children it already had; the claim that an
empty label raster and a zero count are returned is false. -/
theorem c4_empty_input_counterexample :
    (connectedComponents imgEmpty03 (fun _ => 0) 5 .four).2 = 5 ∧
    (connectedComponents2 imgEmpty03 (fun _ => 0) 5 .four).2 = 5 ∧
    extractContours3 imgEmpty03 { Node.fresh with children := [7] } 10 =
      .ok ({ Node.fresh with children := [7] }, []) ∧
    (5 : Int) ≠ 0 := by
  refine ⟨by decide, by decide, by decide, by decide⟩

/-- **C4** (amended).  For a zero-sized input image, each of the three
operations returns immediately and without error, leaving the caller's
out-parameters (label raster, component count, contour) exactly as they
were; the result is empty or zero only when the caller's variables already
were. -/
theorem c4_empty_input_amended (I : ImgU) (hI : I.size = 0)
    (labels0 : Nat × Nat → Nat) (nb0 : Int) (c0 : Node) (wf : Nat)
    (conn : Connexity) :
    connectedComponents I labels0 nb0 conn = (labels0, nb0) ∧
    connectedComponents2 I labels0 nb0 conn = (labels0, nb0) ∧
    extractContours3 I c0 wf = .ok (c0, []) ∧
    extractContours2 I c0 wf = .ok (c0, []) := by
  unfold connectedComponents connectedComponents2 extractContours3 extractContours2
  simp [hI]

/-- Witness for the amended C4 at the concrete empty image. -/
theorem c4_empty_input_witness :
    imgEmpty00.size = 0 ∧
    connectedComponents imgEmpty00 (fun _ => 0) 7 .eight = (fun _ => 0, 7) :=
  ⟨by decide, (c4_empty_input_amended imgEmpty00 (by decide) (fun _ => 0) 7
      Node.fresh 3 .eight).1⟩

/-- **C8** (counterexample).  The isolated foreground pixel of `imgRow101`
satisfies the Outer-start condition and the Hole-start condition at the
same time, refuting the claim that no pixel satisfies both. -/
theorem c8_both_starts_counterexample :
    isOuterBorderStart (intCopy imgRow101) 0 1 = true ∧
    isHoleBorderStart (intCopy imgRow101) 0 1 = true := by
  refine ⟨by decide, by decide⟩

/-- **C8** (amended).  A pixel can satisfy both start conditions: this
happens exactly for a pixel of value 1 with background (or the image edge)
both to its west and to its east; the scan's if/else then classifies such
a pixel as an Outer start, since the Outer test is evaluated first. -/
theorem c8_overlap_characterization (I : ImgI) (i j : Nat) :
    (isOuterBorderStart I i j = true ∧ isHoleBorderStart I i j = true) ↔
    (I.get i j = 1 ∧ (j = 0 ∨ I.get i (j - 1) = 0) ∧
      (j = I.w - 1 ∨ I.get i (j + 1) = 0)) := by
  unfold isOuterBorderStart isHoleBorderStart
  simp only [Bool.and_eq_true, Bool.or_eq_true, decide_eq_true_eq]
  constructor
  · rintro ⟨⟨h1, h2⟩, _, h4⟩
    exact ⟨h1, h2, h4⟩
  · rintro ⟨h1, h2, h3⟩
    exact ⟨⟨h1, h2⟩, by rw [h1], h3⟩

/-- **C3** (counterexample).  On the non-empty one-pixel image the part_003
variant returns a tree whose root node is typed as a hole contour (it is
created with `vp::CONTOUR_HOLE`), not as a background contour, refuting
the claim that the root has kind BackgroundRoot. -/
theorem c3_root_kind_counterexample :
    ¬ (∀ r, extractContours3 imgOneZero Node.fresh 50 = .ok r →
        r.1.ctype = .background) := by
  intro h
  have hr : extractContours3 imgOneZero Node.fresh 50 =
      .ok ({ ctype := .hole, parent := none, children := [], npoints := [] },
           [{ ctype := .hole, parent := none, children := [], npoints := [] }]) := by
    decide
  exact absurd (h _ hr) (by decide)

/-- **C6** (counterexample).  On `barInAnnulus` the part_003 extraction
returns a tree in which the bar's Outer contour (node 3, reachable from
the root) has the Hole contour node 2 as its parent — neither the root nor
an Outer contour — refuting the claim that every Outer contour's parent is
the BackgroundRoot or another Outer contour. -/
theorem c6_outer_parent_counterexample :
    ¬ (∀ a, extractRun3 barInAnnulus 400 = .ok a → ∀ c p, treeReach a c →
        (nodeAt a c).ctype = .outer → (nodeAt a c).parent = some p →
        p = 0 ∨ (nodeAt a p).ctype = .outer) := by
  intro h
  have hrun : extractRun3 barInAnnulus 400 = .ok barArena := by decide
  have hreach : treeReach barArena 3 :=
    Relation.ReflTransGen.tail (Relation.ReflTransGen.tail
      (Relation.ReflTransGen.tail Relation.ReflTransGen.refl
        (show childEdge barArena 0 1 by decide))
      (show childEdge barArena 1 2 by decide))
      (show childEdge barArena 2 3 by decide)
  have hc := h barArena hrun 3 2 hreach (by decide) (by decide)
  rcases hc with h0 | ho
  · exact absurd h0 (by decide)
  · exact absurd ho (by decide)

/-! ### Unreachability of the InvariantViolation (claim C5)

The `vpException` thrown by `followBorder` when `fromTo` is handed two
identical points can never fire during a whole-image extraction: every
point delivered by `vpDirection::active` differs from the probed point, so
the two walk points stay distinct. -/

theorem fromTo_ne_isSome {a b : Int × Int} (h : a ≠ b) : (fromTo a b).isSome := by
  unfold fromTo
  rw [if_neg h]
  rcases lt_trichotomy a.1 b.1 with h1 | h1 | h1
  · rw [if_neg (by omega : ¬ a.1 = b.1), if_pos h1]
    rfl
  · rw [if_pos h1]
    rfl
  · rw [if_neg (by omega : ¬ a.1 = b.1), if_neg (by omega : ¬ a.1 < b.1)]
    rfl

theorem active_valid_ne (d : Dir) (I : ImgI) (p : Int × Int)
    (h1 : 0 ≤ (d.active I p).1) : d.active I p ≠ p := by
  unfold Dir.active at h1 ⊢
  split at h1
  · exact absurd h1 (by decide)
  · split at h1
    · next hB hpx =>
      rw [if_neg hB, if_pos hpx]
      intro hp
      have hy : ((toU32 (p.1 + diry d) : Int)) = p.1 := congrArg Prod.fst hp
      have hx : ((toU32 (p.2 + dirx d) : Int)) = p.2 := congrArg Prod.snd hp
      have hdy : diry d = 0 := by
        have h0 : (0 : Int) ≤ (p.1 + diry d) % (UINT32 : Int) :=
          Int.emod_nonneg _ (by simp [UINT32])
        have h2 : (p.1 + diry d) % (UINT32 : Int) < (UINT32 : Int) :=
          Int.emod_lt_of_pos _ (by simp [UINT32])
        have h3 : ((toU32 (p.1 + diry d) : Int)) = (p.1 + diry d) % (UINT32 : Int) := by
          unfold toU32
          exact Int.toNat_of_nonneg h0
        rw [h3] at hy
        have hdr : diry d = -1 ∨ diry d = 0 ∨ diry d = 1 := by cases d <;> simp [diry]
        simp only [UINT32] at hy h0 h2
        omega
      have hdx : dirx d = 0 := by
        have h0 : (0 : Int) ≤ (p.2 + dirx d) % (UINT32 : Int) :=
          Int.emod_nonneg _ (by simp [UINT32])
        have h2 : (p.2 + dirx d) % (UINT32 : Int) < (UINT32 : Int) :=
          Int.emod_lt_of_pos _ (by simp [UINT32])
        have h3 : ((toU32 (p.2 + dirx d) : Int)) = (p.2 + dirx d) % (UINT32 : Int) := by
          unfold toU32
          exact Int.toNat_of_nonneg h0
        rw [h3] at hx
        have hdr : dirx d = -1 ∨ dirx d = 0 ∨ dirx d = 1 := by cases d <;> simp [dirx]
        simp only [UINT32] at hx h0 h2
        omega
      cases d <;> simp [dirx, diry] at hdx hdy
    · exact absurd h1 (by decide)

theorem cwSweep_some_ne {I : ImgI} {ij q : Int × Int} :
    ∀ {f : Nat} {tr st : Dir}, cwSweep I ij f tr st = some q → q ≠ ij := by
  intro f
  induction f with
  | zero =>
    intro tr st h
    simp [cwSweep] at h
  | succ f ih =>
    intro tr st h
    simp only [cwSweep] at h
    split at h
    · simp at h
    · split at h
      · next hv =>
        cases h
        exact active_valid_ne tr I ij hv.1
      · exact ih h

theorem probeLoop_some_ne {I : ImgI} {p q : Int × Int} :
    ∀ {f : Nat} {ch : Dir → Bool} {tr : Dir},
      (probeLoop I p f ch tr).1 = some q → q ≠ p := by
  intro f
  induction f with
  | zero =>
    intro ch tr h
    simp [probeLoop] at h
  | succ f ih =>
    intro ch tr h
    simp only [probeLoop] at h
    split at h
    · next hv =>
      simp only [Prod.fst, Option.some.injEq] at h
      rw [← h]
      exact active_valid_ne tr I p hv.1
    · split at h
      · simp at h
      · exact ih h

theorem walk3_no_iv {ij i1j1 : Int × Int} {nbd : Int} :
    ∀ (f : Nat) (I : ImgI) (i2j2 i3j3 : Int × Int) (pts : List (Int × Int)),
      i3j3 ≠ i2j2 →
      walk3 ij i1j1 nbd f I i2j2 i3j3 pts ≠ .error .invariantViolation := by
  intro f
  induction f with
  | zero =>
    intro I i2 i3 pts _ h
    simp [walk3] at h
  | succ f ih =>
    intro I i2 i3 pts hne h
    simp only [walk3] at h
    split at h
    · next hft =>
      have hS := fromTo_ne_isSome hne
      rw [hft] at hS
      simp at hS
    · next dir hft =>
      split at h
      · simp at h
      · next i4 hpr =>
        split at h
        · simp at h
        · exact ih _ _ _ _ (probeLoop_some_ne hpr) h

theorem followBorder3_no_iv {I : ImgI} {ij fm : Int × Int} {nbd : Int} {fuel : Nat}
    (hne : ij ≠ fm) :
    followBorder3 I ij fm nbd fuel ≠ .error .invariantViolation := by
  unfold followBorder3
  split
  · next hft =>
    have hS := fromTo_ne_isSome hne
    rw [hft] at hS
    simp at hS
  · next dir hft =>
    split
    · simp
    · next i1j1 hcw =>
      exact walk3_no_iv fuel I i1j1 ij [] (fun hc => (cwSweep_some_ne hcw) hc.symm)

theorem setParentE_ne_iv (a : List Node) (c : Nat) (pp : Option Nat) :
    setParentE a c pp ≠ .error .invariantViolation := by
  unfold setParentE
  cases pp <;> simp

theorem traceRecord3_no_iv {wf : Nat} {s : ExtractState} {i j : Nat}
    {fm : Int × Int} {b bp : Nat} {o hl : Bool}
    (hne : ((i : Int), (j : Int)) ≠ fm) :
    traceRecord3 wf s i j fm b bp o hl ≠ .error .invariantViolation := by
  unfold traceRecord3
  intro h
  split at h
  · next e hr =>
    injection h with h2
    subst h2
    exact followBorder3_no_iv hne hr
  · simp at h
  · simp at h

theorem extractStep3_no_iv (wf : Nat) (s : ExtractState) (i j : Nat) :
    extractStep3 wf s i j ≠ .error .invariantViolation := by
  have hne1 : ((i : Int), (j : Int)) ≠ ((i : Int), (j : Int) - 1) := by
    intro hc
    have h2 := congrArg Prod.snd hc
    simp at h2
    omega
  have hne2 : ((i : Int), (j : Int)) ≠ ((i : Int), (j : Int) + 1) := by
    intro hc
    have h2 := congrArg Prod.snd hc
    simp at h2
  intro h
  simp only [extractStep3] at h
  split at h
  · next e heq =>
    injection h with h2
    subst h2
    split at heq
    · split at heq
      · split at heq
        · split at heq
          · next e2 heq2 =>
            injection heq with h3
            subst h3
            split at heq2
            · exact setParentE_ne_iv _ _ _ heq2
            · exact setParentE_ne_iv _ _ _ heq2
            · simp at heq2
          · exact traceRecord3_no_iv hne1 heq
        · simp at heq
      · split at heq
        · split at heq
          · next e2 heq2 =>
            injection heq with h3
            subst h3
            split at heq2
            · exact setParentE_ne_iv _ _ _ heq2
            · exact setParentE_ne_iv _ _ _ heq2
            · simp at heq2
          · exact traceRecord3_no_iv hne2 heq
        · simp at heq
    · simp at heq
  · simp at h

theorem extractRowCells3_no_iv (wf i : Nat) :
    ∀ (cols : List Nat) (s : ExtractState),
      extractRowCells3 wf i cols s ≠ .error .invariantViolation := by
  intro cols
  induction cols with
  | nil =>
    intro s h
    simp [extractRowCells3] at h
  | cons j rest ih =>
    intro s h
    simp only [extractRowCells3] at h
    split at h
    · next e heq =>
      injection h with h2
      subst h2
      exact extractStep3_no_iv wf s i j heq
    · exact ih _ h

theorem extractRows3_no_iv (wf : Nat) (cols : List Nat) :
    ∀ (rows : List Nat) (s : ExtractState),
      extractRows3 wf cols rows s ≠ .error .invariantViolation := by
  intro rows
  induction rows with
  | nil =>
    intro s h
    simp [extractRows3] at h
  | cons i rest ih =>
    intro s h
    simp only [extractRows3] at h
    split at h
    · next e heq =>
      injection h with h2
      subst h2
      exact extractRowCells3_no_iv wf i cols _ heq
    · exact ih _ h

/-- **C5**.  A direction lookup between two identical points does fail with
the InvariantViolation (first conjunct: `followBorder` called with
identical start points throws at once), but during a whole-image scan
`fromTo` is never invoked on two identical points — consecutive walk
points always differ because `vpDirection::active` never returns the
probed point itself — so the extraction never aborts with an
InvariantViolation, for any input and any fuel.  (The discard of a partial
contour — points cleared, link to the parent removed, scan continued — is
performed on the `followBorder == false` path, traced by the rollback
branch of `traceRecord3`.) -/
theorem c5_invariant_violation_confined :
    (∀ (I : ImgI) (ij : Int × Int) (nbd : Int) (fuel : Nat),
        followBorder3 I ij ij nbd fuel = .error .invariantViolation) ∧
    (∀ (I : ImgU) (c0 : Node) (wf : Nat),
        extractContours3 I c0 wf ≠ .error .invariantViolation) := by
  constructor
  · intro I ij nbd fuel
    unfold followBorder3
    simp [fromTo]
  · intro I c0 wf h
    unfold extractContours3 at h
    split at h
    · simp at h
    · unfold extractRun3 at h
      split at h
      · next e heq =>
        injection h with h2
        subst h2
        split at heq
        · next e2 heq2 =>
          injection heq with h3
          subst h3
          exact extractRows3_no_iv wf _ _ _ heq2
        · simp at heq
      · simp at h

/-! ### Arena bookkeeping lemmas -/

theorem nodeAt_append (a : List Node) (x : Node) (k : Nat) :
    nodeAt (a ++ [x]) k = if k = a.length then x else nodeAt a k := by
  unfold nodeAt
  rcases Nat.lt_trichotomy k a.length with hk | hk | hk
  · rw [List.getD_append _ _ _ _ hk, if_neg (by omega)]
  · subst hk
    rw [if_pos rfl, List.getD_append_right _ _ _ _ (le_refl _)]
    simp
  · rw [if_neg (by omega), List.getD_append_right _ _ _ _ (by omega),
      List.getD_eq_default _ _ (by simp; omega), List.getD_eq_default _ _ (by omega)]

theorem length_upNode (a : List Node) (k : Nat) (f : Node → Node) :
    (upNode a k f).length = a.length := by
  simp [upNode]

theorem nodeAt_upNode {a : List Node} {k : Nat} (f : Node → Node)
    (hk : k < a.length) (m : Nat) :
    nodeAt (upNode a k f) m = if m = k then f (nodeAt a k) else nodeAt a m := by
  unfold nodeAt upNode
  rw [List.getD_eq_getElem?_getD]
  by_cases hkm : m = k
  · subst hkm
    rw [if_pos rfl, List.getElem?_set_self hk]
    rfl
  · rw [if_neg hkm, List.getElem?_set_ne (fun hc => hkm hc.symm),
      ← List.getD_eq_getElem?_getD]

theorem length_setParent (a : List Node) (c p : Nat) :
    (setParent a c p).length = a.length := by
  simp [setParent, length_upNode]

theorem length_removeParent (a : List Node) (c : Nat) (pp : Option Nat) :
    (removeParent a c pp).length = a.length := by
  cases pp <;> simp [removeParent, length_upNode]

theorem upNode_oob {a : List Node} {k : Nat} (f : Node → Node)
    (hk : a.length ≤ k) : upNode a k f = a := by
  unfold upNode
  exact List.set_eq_of_length_le hk

theorem nodeAt_upNode_any (a : List Node) (k : Nat) (f : Node → Node) (m : Nat) :
    nodeAt (upNode a k f) m =
      if m = k ∧ k < a.length then f (nodeAt a k) else nodeAt a m := by
  by_cases hk : k < a.length
  · rw [nodeAt_upNode f hk]
    by_cases hm : m = k
    · rw [if_pos hm, if_pos ⟨hm, hk⟩]
    · rw [if_neg hm, if_neg (fun hc => hm hc.1)]
  · rw [upNode_oob f (by omega), if_neg (fun hc => hk hc.2)]

theorem nodeAt_append_fresh (a : List Node) (k : Nat) :
    nodeAt (a ++ [Node.fresh]) k = nodeAt a k := by
  rw [nodeAt_append]
  by_cases hk : k = a.length
  · subst hk
    rw [if_pos rfl]
    unfold nodeAt
    rw [List.getD_eq_default _ _ (le_refl _)]
  · rw [if_neg hk]

theorem bmapFind_mem {m : List (Int × Nat)} {k : Int} {v : Nat} :
    bmapFind m k = some v → (k, v) ∈ m := by
  induction m with
  | nil => intro h; simp [bmapFind] at h
  | cons e t ih =>
    intro h
    unfold bmapFind at h
    rcases e with ⟨k2, v2⟩
    by_cases hk : k = k2
    · rw [if_pos hk] at h
      injection h with h2
      subst h2
      subst hk
      exact List.mem_cons_self _ _
    · rw [if_neg hk] at h
      exact List.mem_cons_of_mem _ (ih h)

theorem bmapSet_mem {m : List (Int × Nat)} {k : Int} {v : Nat} {e : Int × Nat} :
    e ∈ bmapSet m k v → e ∈ m ∨ e = (k, v) := by
  induction m with
  | nil =>
    intro h
    simp [bmapSet] at h
    right
    exact h
  | cons e2 t ih =>
    intro h
    unfold bmapSet at h
    rcases e2 with ⟨k2, v2⟩
    by_cases hk : k = k2
    · rw [if_pos hk] at h
      rcases List.mem_cons.1 h with h1 | h1
      · right; exact h1
      · left; exact List.mem_cons_of_mem _ h1
    · rw [if_neg hk] at h
      rcases List.mem_cons.1 h with h1 | h1
      · left; rw [h1]; exact List.mem_cons_self _ _
      · rcases ih h1 with h2 | h2
        · left; exact List.mem_cons_of_mem _ h2
        · right; exact h2

/-! ### Preservation of the part_003 arena invariant -/

/-- The arena invariant survives any modification that keeps the length
and every node's type, shrinks children lists and either keeps or clears
parent links. -/
theorem inv3_of_weaken {a a2 : List Node}
    (hlen : a2.length = a.length)
    (hct : ∀ m, (nodeAt a2 m).ctype = (nodeAt a m).ctype)
    (hch : ∀ m x, x ∈ (nodeAt a2 m).children → x ∈ (nodeAt a m).children)
    (hpar : ∀ m, (nodeAt a2 m).parent = (nodeAt a m).parent ∨
      (nodeAt a2 m).parent = none)
    (hInv : ArenaInv3 a) : ArenaInv3 a2 := by
  refine ⟨?_, ?_, ?_, ?_, ?_, ?_, ?_, ?_, ?_⟩
  · rw [hct]; exact hInv.root
  · intro k; rw [hct]; exact hInv.noBg k
  · intro k q hk hq
    rcases hpar k with hp | hp
    · rw [hct]
      exact hInv.parOuter k q (by rw [← hct]; exact hk) (by rw [← hp]; exact hq)
    · rw [hp] at hq; cases hq
  · intro k q hk hq
    rcases hpar k with hp | hp
    · rw [hct]
      exact hInv.parHole k q (by rw [← hct]; exact hk) (by rw [← hp]; exact hq)
    · rw [hp] at hq; cases hq
  · intro p c hc hco
    rw [hct]
    exact hInv.edgeOuter p c (hch p c hc) (by rw [← hct]; exact hco)
  · intro p c hc hco
    rw [hct]
    exact hInv.edgeHole p c (hch p c hc) (by rw [← hct]; exact hco)
  · intro p c hc
    rw [hlen]
    exact hInv.childLt p c (hch p c hc)
  · intro k q hq
    rcases hpar k with hp | hp
    · rw [hlen]
      exact hInv.parLt k q (by rw [← hp]; exact hq)
    · rw [hp] at hq; cases hq
  · rw [hlen]; exact hInv.len1

/-- Updating only the stored points of a node preserves the invariant. -/
theorem inv3_upPoints {a : List Node} (k : Nat) (pts : List (Int × Int))
    (hInv : ArenaInv3 a) :
    ArenaInv3 (upNode a k (fun n => { n with npoints := pts })) := by
  refine inv3_of_weaken (length_upNode _ _ _) ?_ ?_ ?_ hInv
  · intro m
    rw [nodeAt_upNode_any]
    split
    · next hm => rw [hm.1]
    · rfl
  · intro m x
    rw [nodeAt_upNode_any]
    split
    · next hm => rw [hm.1]; exact fun h => h
    · exact fun h => h
  · intro m
    rw [nodeAt_upNode_any]
    split
    · next hm => rw [hm.1]; left; rfl
    · left; rfl

theorem ctype_removeParent (a : List Node) (c : Nat) (pp : Option Nat) (m : Nat) :
    (nodeAt (removeParent a c pp) m).ctype = (nodeAt a m).ctype := by
  rcases pp with _ | p
  · rfl
  · unfold removeParent
    rw [nodeAt_upNode_any]
    split
    · next hm =>
      obtain ⟨rfl, -⟩ := hm
      rw [nodeAt_upNode_any]
      split
      · next hm2 =>
        obtain ⟨rfl, -⟩ := hm2
        rfl
      · rfl
    · rw [nodeAt_upNode_any]
      split
      · next hm2 =>
        obtain ⟨rfl, -⟩ := hm2
        rfl
      · rfl

theorem children_removeParent (a : List Node) (c : Nat) (pp : Option Nat) (m x : Nat) :
    x ∈ (nodeAt (removeParent a c pp) m).children → x ∈ (nodeAt a m).children := by
  rcases pp with _ | p
  · exact fun h => h
  · unfold removeParent
    rw [nodeAt_upNode_any]
    split
    · next hm =>
      obtain ⟨rfl, -⟩ := hm
      rw [nodeAt_upNode_any]
      split
      · next hm2 =>
        obtain ⟨rfl, -⟩ := hm2
        intro hx
        exact (List.mem_filter.1 hx).1
      · intro hx
        exact (List.mem_filter.1 hx).1
    · rw [nodeAt_upNode_any]
      split
      · next hm2 =>
        obtain ⟨rfl, -⟩ := hm2
        exact fun h => h
      · exact fun h => h

theorem parent_removeParent (a : List Node) (c : Nat) (pp : Option Nat) (m : Nat) :
    (nodeAt (removeParent a c pp) m).parent = (nodeAt a m).parent ∨
      (nodeAt (removeParent a c pp) m).parent = none := by
  rcases pp with _ | p
  · left; rfl
  · unfold removeParent
    rw [nodeAt_upNode_any]
    split
    · next hm =>
      obtain ⟨rfl, -⟩ := hm
      rw [nodeAt_upNode_any]
      split
      · next hm2 =>
        obtain ⟨rfl, -⟩ := hm2
        right
        rfl
      · left
        rfl
    · rw [nodeAt_upNode_any]
      split
      · next hm2 =>
        obtain ⟨rfl, -⟩ := hm2
        right
        rfl
      · left
        rfl

/-- The rollback `removeParent` (clearing a parent link and filtering a
children list) preserves the invariant. -/
theorem inv3_removeParent {a : List Node} (c : Nat) (pp : Option Nat)
    (hInv : ArenaInv3 a) : ArenaInv3 (removeParent a c pp) := by
  exact inv3_of_weaken (length_removeParent _ _ _) (ctype_removeParent a c pp)
    (children_removeParent a c pp) (parent_removeParent a c pp) hInv

theorem nodeAt_typed (a : List Node) (τ : ContourType) (m : Nat) :
    nodeAt (upNode (a ++ [Node.fresh]) a.length (fun n => { n with ctype := τ })) m =
      if m = a.length then { ctype := τ, parent := none, children := [], npoints := [] }
      else nodeAt a m := by
  rw [nodeAt_upNode _ (by simp)]
  by_cases hm : m = a.length
  · rw [if_pos hm, if_pos hm, nodeAt_append, if_pos rfl]
    rfl
  · rw [if_neg hm, if_neg hm, nodeAt_append_fresh]

theorem inv3_typed {a : List Node} (hInv : ArenaInv3 a) (τ : ContourType)
    (hτ : τ ≠ .background) :
    ArenaInv3 (upNode (a ++ [Node.fresh]) a.length (fun n => { n with ctype := τ })) := by
  have hlen : (upNode (a ++ [Node.fresh]) a.length
      (fun n => { n with ctype := τ })).length = a.length + 1 := by
    rw [length_upNode]
    simp
  refine ⟨?_, ?_, ?_, ?_, ?_, ?_, ?_, ?_, ?_⟩
  · rw [nodeAt_typed, if_neg (by have := hInv.len1; omega)]
    exact hInv.root
  · intro k
    rw [nodeAt_typed]
    split
    · exact hτ
    · exact hInv.noBg k
  · intro k q hk hq
    rw [nodeAt_typed] at hk hq
    split at hk
    · next hm =>
      rw [if_pos hm] at hq
      cases hq
    · next hm =>
      rw [if_neg hm] at hq
      have hql : q < a.length := hInv.parLt k q hq
      rw [nodeAt_typed, if_neg (by omega)]
      exact hInv.parOuter k q hk hq
  · intro k q hk hq
    rw [nodeAt_typed] at hk hq
    split at hk
    · next hm =>
      rw [if_pos hm] at hq
      cases hq
    · next hm =>
      rw [if_neg hm] at hq
      have hql : q < a.length := hInv.parLt k q hq
      rw [nodeAt_typed, if_neg (by omega)]
      exact hInv.parHole k q hk hq
  · intro p c hc hco
    rw [nodeAt_typed] at hc hco ⊢
    split at hc
    · simp at hc
    · next hm =>
      have hcl : c < a.length := hInv.childLt p c hc
      rw [if_neg (by omega)] at hco
      rw [if_neg hm]
      exact hInv.edgeOuter p c hc hco
  · intro p c hc hco
    rw [nodeAt_typed] at hc hco ⊢
    split at hc
    · simp at hc
    · next hm =>
      have hcl : c < a.length := hInv.childLt p c hc
      rw [if_neg (by omega)] at hco
      rw [if_neg hm]
      exact hInv.edgeHole p c hc hco
  · intro p c hc
    rw [nodeAt_typed] at hc
    split at hc
    · simp at hc
    · rw [hlen]
      have := hInv.childLt p c hc
      omega
  · intro k q hq
    rw [nodeAt_typed] at hq
    split at hq
    · cases hq
    · rw [hlen]
      have := hInv.parLt k q hq
      omega
  · rw [hlen]
    omega

theorem nodeAt_insert (a : List Node) (τ : ContourType) {p : Nat}
    (hp : p < a.length) (m : Nat) :
    nodeAt (setParent
      (upNode (a ++ [Node.fresh]) a.length (fun n => { n with ctype := τ }))
      a.length p) m =
      if m = a.length then
        { ctype := τ, parent := some p, children := [], npoints := [] }
      else if m = p then
        { nodeAt a p with children := (nodeAt a p).children ++ [a.length] }
      else nodeAt a m := by
  unfold setParent
  have hl1 : (upNode (a ++ [Node.fresh]) a.length
      (fun n => { n with ctype := τ })).length = a.length + 1 := by
    rw [length_upNode]
    simp
  rw [nodeAt_upNode _ (by rw [length_upNode, hl1]; omega)]
  by_cases hmp : m = p
  · subst hmp
    rw [if_pos rfl, if_neg (by omega), if_pos rfl]
    rw [nodeAt_upNode _ (by rw [hl1]; omega), if_neg (by omega), nodeAt_typed,
      if_neg (by omega)]
  · rw [if_neg hmp]
    rw [nodeAt_upNode _ (by rw [hl1]; omega)]
    by_cases hmc : m = a.length
    · rw [if_pos hmc, if_pos hmc, nodeAt_typed, if_pos rfl]
    · rw [if_neg hmc, if_neg hmc, nodeAt_typed, if_neg hmc, if_neg hmp]

theorem inv3_insert {a : List Node} (hInv : ArenaInv3 a) (τ : ContourType)
    (hτ : τ ≠ .background) {p : Nat} (hp : p < a.length)
    (hruleO : τ = .outer → (nodeAt a p).ctype = .hole)
    (hruleH : τ = .hole → (nodeAt a p).ctype = .outer) :
    ArenaInv3 (setParent
      (upNode (a ++ [Node.fresh]) a.length (fun n => { n with ctype := τ }))
      a.length p) := by
  have hlen : (setParent
      (upNode (a ++ [Node.fresh]) a.length (fun n => { n with ctype := τ }))
      a.length p).length = a.length + 1 := by
    rw [length_setParent, length_upNode]
    simp
  have hc1 : 1 ≤ a.length := hInv.len1
  refine ⟨?_, ?_, ?_, ?_, ?_, ?_, ?_, ?_, ?_⟩
  · rw [nodeAt_insert _ _ hp, if_neg (by omega)]
    by_cases h0 : 0 = p
    · rw [if_pos h0]
      show (nodeAt a p).ctype = ContourType.hole
      rw [← h0]
      exact hInv.root
    · rw [if_neg h0]
      exact hInv.root
  · intro k
    rw [nodeAt_insert _ _ hp]
    by_cases hkc : k = a.length
    · rw [if_pos hkc]
      exact hτ
    · rw [if_neg hkc]
      by_cases hkp : k = p
      · rw [if_pos hkp]
        exact hInv.noBg p
      · rw [if_neg hkp]
        exact hInv.noBg k
  · intro k q hk hq
    rw [nodeAt_insert _ _ hp] at hk hq
    by_cases hkc : k = a.length
    · rw [if_pos hkc] at hk hq
      have hkt : τ = ContourType.outer := hk
      have hq2 : q = p := by
        have : (some p : Option Nat) = some q := hq
        injection this with h2
        exact h2.symm
      rw [hq2, nodeAt_insert _ _ hp, if_neg (by omega), if_pos rfl]
      show (nodeAt a p).ctype = ContourType.hole
      exact hruleO hkt
    · rw [if_neg hkc] at hk hq
      by_cases hkp : k = p
      · rw [if_pos hkp] at hk hq
        have hk2 : (nodeAt a p).ctype = ContourType.outer := hk
        have hq2 : (nodeAt a p).parent = some q := hq
        have hql : q < a.length := hInv.parLt p q hq2
        rw [nodeAt_insert _ _ hp, if_neg (by omega)]
        by_cases hqp : q = p
        · rw [if_pos hqp]
          show (nodeAt a p).ctype = ContourType.hole
          rw [← hqp]
          exact hInv.parOuter p q hk2 hq2
        · rw [if_neg hqp]
          exact hInv.parOuter p q hk2 hq2
      · rw [if_neg hkp] at hk hq
        have hql : q < a.length := hInv.parLt k q hq
        rw [nodeAt_insert _ _ hp, if_neg (by omega)]
        by_cases hqp : q = p
        · rw [if_pos hqp]
          show (nodeAt a p).ctype = ContourType.hole
          rw [← hqp]
          exact hInv.parOuter k q hk hq
        · rw [if_neg hqp]
          exact hInv.parOuter k q hk hq
  · intro k q hk hq
    rw [nodeAt_insert _ _ hp] at hk hq
    by_cases hkc : k = a.length
    · rw [if_pos hkc] at hk hq
      have hkt : τ = ContourType.hole := hk
      have hq2 : q = p := by
        have : (some p : Option Nat) = some q := hq
        injection this with h2
        exact h2.symm
      rw [hq2, nodeAt_insert _ _ hp, if_neg (by omega), if_pos rfl]
      show (nodeAt a p).ctype = ContourType.outer
      exact hruleH hkt
    · rw [if_neg hkc] at hk hq
      by_cases hkp : k = p
      · rw [if_pos hkp] at hk hq
        have hk2 : (nodeAt a p).ctype = ContourType.hole := hk
        have hq2 : (nodeAt a p).parent = some q := hq
        have hql : q < a.length := hInv.parLt p q hq2
        rw [nodeAt_insert _ _ hp, if_neg (by omega)]
        by_cases hqp : q = p
        · rw [if_pos hqp]
          show (nodeAt a p).ctype = ContourType.outer
          rw [← hqp]
          exact hInv.parHole p q hk2 hq2
        · rw [if_neg hqp]
          exact hInv.parHole p q hk2 hq2
      · rw [if_neg hkp] at hk hq
        have hql : q < a.length := hInv.parLt k q hq
        rw [nodeAt_insert _ _ hp, if_neg (by omega)]
        by_cases hqp : q = p
        · rw [if_pos hqp]
          show (nodeAt a p).ctype = ContourType.outer
          rw [← hqp]
          exact hInv.parHole k q hk hq
        · rw [if_neg hqp]
          exact hInv.parHole k q hk hq
  · intro pe ce hc hco
    rw [nodeAt_insert _ _ hp] at hc hco ⊢
    by_cases hpc : pe = a.length
    · rw [if_pos hpc] at hc
      simp at hc
    · rw [if_neg hpc] at hc ⊢
      by_cases hpp : pe = p
      · rw [if_pos hpp] at hc ⊢
        have hc2 : ce ∈ (nodeAt a p).children ++ [a.length] := hc
        rcases List.mem_append.1 hc2 with hold | hnew
        · have hcl : ce < a.length := hInv.childLt p ce hold
          rw [if_neg (by omega)] at hco
          by_cases hcp : ce = p
          · rw [if_pos hcp] at hco
            have hco2 : (nodeAt a p).ctype = ContourType.outer := hco
            show (nodeAt a p).ctype = ContourType.hole
            rw [hcp] at hold
            exact hInv.edgeOuter p p hold hco2
          · rw [if_neg hcp] at hco
            show (nodeAt a p).ctype = ContourType.hole
            exact hInv.edgeOuter p ce hold hco
        · have hce : ce = a.length := by simpa using hnew
          rw [if_pos hce] at hco
          have hco2 : τ = ContourType.outer := hco
          show (nodeAt a p).ctype = ContourType.hole
          exact hruleO hco2
      · rw [if_neg hpp] at hc ⊢
        have hcl : ce < a.length := hInv.childLt pe ce hc
        rw [if_neg (by omega)] at hco
        by_cases hcp : ce = p
        · rw [if_pos hcp] at hco
          have hco2 : (nodeAt a p).ctype = ContourType.outer := hco
          rw [hcp] at hc
          exact hInv.edgeOuter pe p hc hco2
        · rw [if_neg hcp] at hco
          exact hInv.edgeOuter pe ce hc hco
  · intro pe ce hc hco
    rw [nodeAt_insert _ _ hp] at hc hco ⊢
    by_cases hpc : pe = a.length
    · rw [if_pos hpc] at hc
      simp at hc
    · rw [if_neg hpc] at hc ⊢
      by_cases hpp : pe = p
      · rw [if_pos hpp] at hc ⊢
        have hc2 : ce ∈ (nodeAt a p).children ++ [a.length] := hc
        rcases List.mem_append.1 hc2 with hold | hnew
        · have hcl : ce < a.length := hInv.childLt p ce hold
          rw [if_neg (by omega)] at hco
          by_cases hcp : ce = p
          · rw [if_pos hcp] at hco
            have hco2 : (nodeAt a p).ctype = ContourType.hole := hco
            show (nodeAt a p).ctype = ContourType.outer
            rw [hcp] at hold
            exact hInv.edgeHole p p hold hco2
          · rw [if_neg hcp] at hco
            show (nodeAt a p).ctype = ContourType.outer
            exact hInv.edgeHole p ce hold hco
        · have hce : ce = a.length := by simpa using hnew
          rw [if_pos hce] at hco
          have hco2 : τ = ContourType.hole := hco
          show (nodeAt a p).ctype = ContourType.outer
          exact hruleH hco2
      · rw [if_neg hpp] at hc ⊢
        have hcl : ce < a.length := hInv.childLt pe ce hc
        rw [if_neg (by omega)] at hco
        by_cases hcp : ce = p
        · rw [if_pos hcp] at hco
          have hco2 : (nodeAt a p).ctype = ContourType.hole := hco
          rw [hcp] at hc
          exact hInv.edgeHole pe p hc hco2
        · rw [if_neg hcp] at hco
          exact hInv.edgeHole pe ce hc hco
  · intro pe ce hc
    rw [nodeAt_insert _ _ hp] at hc
    rw [hlen]
    by_cases hpc : pe = a.length
    · rw [if_pos hpc] at hc
      simp at hc
    · rw [if_neg hpc] at hc
      by_cases hpp : pe = p
      · rw [if_pos hpp] at hc
        have hc2 : ce ∈ (nodeAt a p).children ++ [a.length] := hc
        rcases List.mem_append.1 hc2 with hold | hnew
        · have := hInv.childLt p ce hold
          omega
        · have : ce = a.length := by simpa using hnew
          omega
      · rw [if_neg hpp] at hc
        have := hInv.childLt pe ce hc
        omega
  · intro k q hq
    rw [nodeAt_insert _ _ hp] at hq
    rw [hlen]
    by_cases hkc : k = a.length
    · rw [if_pos hkc] at hq
      have : (some p : Option Nat) = some q := hq
      injection this with h2
      omega
    · rw [if_neg hkc] at hq
      by_cases hkp : k = p
      · rw [if_pos hkp] at hq
        have hq2 : (nodeAt a p).parent = some q := hq
        have := hInv.parLt p q hq2
        omega
      · rw [if_neg hkp] at hq
        have := hInv.parLt k q hq
        omega
  · rw [hlen]
    omega

theorem inv3_append_fresh {a : List Node} (hInv : ArenaInv3 a) :
    ArenaInv3 (a ++ [Node.fresh]) := by
  refine ⟨?_, ?_, ?_, ?_, ?_, ?_, ?_, ?_, ?_⟩
  · rw [nodeAt_append_fresh]
    exact hInv.root
  · intro k
    rw [nodeAt_append_fresh]
    exact hInv.noBg k
  · intro k q hk hq
    rw [nodeAt_append_fresh] at hk hq
    rw [nodeAt_append_fresh]
    exact hInv.parOuter k q hk hq
  · intro k q hk hq
    rw [nodeAt_append_fresh] at hk hq
    rw [nodeAt_append_fresh]
    exact hInv.parHole k q hk hq
  · intro p c hc hco
    rw [nodeAt_append_fresh] at hc hco ⊢
    exact hInv.edgeOuter p c hc hco
  · intro p c hc hco
    rw [nodeAt_append_fresh] at hc hco ⊢
    exact hInv.edgeHole p c hc hco
  · intro p c hc
    rw [nodeAt_append_fresh] at hc
    have := hInv.childLt p c hc
    simp
    omega
  · intro k q hq
    rw [nodeAt_append_fresh] at hq
    have := hInv.parLt k q hq
    simp
    omega
  · have := hInv.len1
    simp

theorem inv3_rollbackHalfOuter (x : List Node) (b bp : Nat)
    (hx : ArenaInv3 x) : ArenaInv3 (rollbackHalfOuter x b bp) := by
  unfold rollbackHalfOuter
  split
  · exact inv3_removeParent _ _ hx
  · exact inv3_removeParent _ _ hx
  · exact hx

theorem inv3_rollbackHalfHole (x : List Node) (b bp : Nat)
    (hx : ArenaInv3 x) : ArenaInv3 (rollbackHalfHole x b bp) := by
  unfold rollbackHalfHole
  split
  · exact inv3_removeParent _ _ hx
  · exact inv3_removeParent _ _ hx
  · exact hx

theorem length_rollbackHalfOuter (x : List Node) (b bp : Nat) :
    (rollbackHalfOuter x b bp).length = x.length := by
  unfold rollbackHalfOuter
  split <;> simp [length_removeParent]

theorem length_rollbackHalfHole (x : List Node) (b bp : Nat) :
    (rollbackHalfHole x b bp).length = x.length := by
  unfold rollbackHalfHole
  split <;> simp [length_removeParent]

theorem rollbackArena_inv {a : List Node} (b bp : Nat) (o hl : Bool)
    (hInv : ArenaInv3 a) : ArenaInv3 (rollbackArena a b bp o hl) := by
  unfold rollbackArena
  cases o <;> cases hl
  · exact inv3_upPoints _ _ hInv
  · exact inv3_rollbackHalfHole _ _ _ (inv3_upPoints _ _ hInv)
  · exact inv3_rollbackHalfOuter _ _ _ (inv3_upPoints _ _ hInv)
  · exact inv3_rollbackHalfHole _ _ _
      (inv3_rollbackHalfOuter _ _ _ (inv3_upPoints _ _ hInv))

theorem length_rollbackArena (a : List Node) (b bp : Nat) (o hl : Bool) :
    (rollbackArena a b bp o hl).length = a.length := by
  unfold rollbackArena
  cases o <;> cases hl <;>
    simp [length_rollbackHalfHole, length_rollbackHalfOuter, length_upNode]

theorem traceRecord3_inv {wf : Nat} {s : ExtractState} {i j : Nat}
    {fm : Int × Int} {b bp : Nat} {o hl : Bool} (hb : b < s.arena.length)
    (hs : StateInv3 s) {s2 : ExtractState} :
    traceRecord3 wf s i j fm b bp o hl = .ok s2 → StateInv3 s2 := by
  intro h
  unfold traceRecord3 at h
  split at h
  · simp at h
  · injection h with h2
    subst h2
    refine ⟨inv3_upPoints _ _ hs.arena, ?_⟩
    intro e he
    rw [length_upNode]
    rcases bmapSet_mem he with h1 | h1
    · exact hs.mapLt e h1
    · rw [h1]
      exact hb
  · injection h with h2
    subst h2
    refine ⟨rollbackArena_inv _ _ _ _ hs.arena, ?_⟩
    intro e he
    rw [length_rollbackArena]
    exact hs.mapLt e he

/-- One scan cell preserves the part_003 state invariant. -/
theorem extractStep3_inv (wf : Nat) (s : ExtractState) (i j : Nat)
    (hs : StateInv3 s) {s2 : ExtractState} :
    extractStep3 wf s i j = .ok s2 → StateInv3 s2 := by
  intro h
  have hInv := hs.arena
  simp only [extractStep3] at h
  split at h
  · simp at h
  · next s3 heq =>
    injection h with h2
    have hs3 : StateInv3 s3 := by
      clear h2
      split at heq
      · split at heq
        · -- outer start
          split at heq
          · next bp hfind =>
            have hbp : bp < s.arena.length := by
              have := bmapFind_mem hfind
              exact hs.mapLt _ this
            split at heq
            · simp at heq
            · next a2 hpe =>
              -- a2 comes from the parent switch
              have ha2 : ArenaInv3 a2 ∧ a2.length = s.arena.length + 1 := by
                have hbpa : nodeAt (upNode (s.arena ++ [Node.fresh]) s.arena.length
                    (fun n => { n with ctype := .outer })) bp = nodeAt s.arena bp := by
                  rw [nodeAt_typed, if_neg (by omega)]
                split at hpe
                · next hty =>
                  rw [hbpa] at hty
                  unfold setParentE at hpe
                  split at hpe
                  · next q hq =>
                    rw [hbpa] at hq
                    injection hpe with hpe2
                    subst hpe2
                    have hq2 : (nodeAt s.arena q).ctype = .hole :=
                      hInv.parOuter bp q hty hq
                    have hql : q < s.arena.length := hInv.parLt bp q hq
                    refine ⟨inv3_insert hInv .outer (by decide) hql
                      (fun _ => hq2) (fun hc => absurd hc (by decide)), ?_⟩
                    rw [length_setParent, length_upNode]
                    simp
                  · cases hpe
                · next hty =>
                  rw [hbpa] at hty
                  injection hpe with hpe2
                  subst hpe2
                  refine ⟨inv3_insert hInv .outer (by decide) hbp
                    (fun _ => hty) (fun hc => absurd hc (by decide)), ?_⟩
                  rw [length_setParent, length_upNode]
                  simp
                · next hty =>
                  rw [hbpa] at hty
                  exact absurd hty (hInv.noBg bp)
              have hsmid : StateInv3 { s with nbd := s.nbd + 1, arena := a2 } := by
                refine ⟨ha2.1, ?_⟩
                intro e he
                have h4 := hs.mapLt e he
                have h5 := ha2.2
                show e.2 < a2.length
                omega
              refine traceRecord3_inv ?_ hsmid heq
              show s.arena.length < a2.length
              rw [ha2.2]
              omega
          · injection heq with heq2
            subst heq2
            refine ⟨inv3_typed hInv .outer (by decide), ?_⟩
            intro e he
            rw [length_upNode]
            have := hs.mapLt e he
            simp
            omega
        · -- hole start
          split at heq
          · next bp hfind =>
            have hbp : bp < s.arena.length := by
              have := bmapFind_mem hfind
              exact hs.mapLt _ this
            split at heq
            · simp at heq
            · next a2 hpe =>
              have ha2 : ArenaInv3 a2 ∧ a2.length = s.arena.length + 1 := by
                have hbpa : nodeAt (upNode (s.arena ++ [Node.fresh]) s.arena.length
                    (fun n => { n with ctype := .hole })) bp = nodeAt s.arena bp := by
                  rw [nodeAt_typed, if_neg (by omega)]
                split at hpe
                · next hty =>
                  rw [hbpa] at hty
                  injection hpe with hpe2
                  subst hpe2
                  refine ⟨inv3_insert hInv .hole (by decide) hbp
                    (fun hc => absurd hc (by decide)) (fun _ => hty), ?_⟩
                  rw [length_setParent, length_upNode]
                  simp
                · next hty =>
                  rw [hbpa] at hty
                  unfold setParentE at hpe
                  split at hpe
                  · next q hq =>
                    rw [hbpa] at hq
                    injection hpe with hpe2
                    subst hpe2
                    have hq2 : (nodeAt s.arena q).ctype = .outer :=
                      hInv.parHole bp q hty hq
                    have hql : q < s.arena.length := hInv.parLt bp q hq
                    refine ⟨inv3_insert hInv .hole (by decide) hql
                      (fun hc => absurd hc (by decide)) (fun _ => hq2), ?_⟩
                    rw [length_setParent, length_upNode]
                    simp
                  · cases hpe
                · next hty =>
                  rw [hbpa] at hty
                  exact absurd hty (hInv.noBg bp)
              have hsmid : StateInv3
                  { s with nbd := s.nbd + 1,
                           lnbd := if 1 < s.img.get i j then s.img.get i j else s.lnbd,
                           arena := a2 } := by
                refine ⟨ha2.1, ?_⟩
                intro e he
                have h4 := hs.mapLt e he
                have h5 := ha2.2
                show e.2 < a2.length
                omega
              refine traceRecord3_inv ?_ hsmid heq
              show s.arena.length < a2.length
              rw [ha2.2]
              omega
          · injection heq with heq2
            subst heq2
            refine ⟨?_, ?_⟩
            · show ArenaInv3 (s.arena ++ [Node.fresh])
              exact inv3_append_fresh hInv
            · intro e he
              have := hs.mapLt e he
              simp
              omega
      · injection heq with heq2
        subst heq2
        exact hs
    subst h2
    split
    · exact ⟨hs3.arena, hs3.mapLt⟩
    · exact hs3

theorem nodeAt_singleton (x : Node) (k : Nat) :
    nodeAt [x] k = if k = 0 then x else Node.fresh := by
  cases k with
  | zero => rfl
  | succ n =>
    rw [if_neg (by omega)]
    unfold nodeAt
    rw [List.getD_eq_default]
    simp

theorem extractRowCells3_inv (wf i : Nat) :
    ∀ (cols : List Nat) (s s2 : ExtractState), StateInv3 s →
      extractRowCells3 wf i cols s = .ok s2 → StateInv3 s2 := by
  intro cols
  induction cols with
  | nil =>
    intro s s2 hs h
    injection h with h2
    subst h2
    exact hs
  | cons j rest ih =>
    intro s s2 hs h
    simp only [extractRowCells3] at h
    split at h
    · simp at h
    · next s3 heq =>
      exact ih s3 s2 (extractStep3_inv wf s i j hs heq) h

theorem extractRows3_inv (wf : Nat) (cols : List Nat) :
    ∀ (rows : List Nat) (s s2 : ExtractState), StateInv3 s →
      extractRows3 wf cols rows s = .ok s2 → StateInv3 s2 := by
  intro rows
  induction rows with
  | nil =>
    intro s s2 hs h
    injection h with h2
    subst h2
    exact hs
  | cons i rest ih =>
    intro s s2 hs h
    simp only [extractRows3] at h
    split at h
    · simp at h
    · next s3 heq =>
      have hs3 : StateInv3 { s with lnbd := 1 } := ⟨hs.arena, hs.mapLt⟩
      refine ih s3 s2 (extractRowCells3_inv wf i cols { s with lnbd := 1 } s3 hs3 heq) h

theorem initState3_nodeAt (I : ImgU) (k : Nat) :
    nodeAt (initState3 I).arena k =
      if k = 0 then
        { ctype := ContourType.hole, parent := none, children := [], npoints := [] }
      else Node.fresh :=
  nodeAt_singleton _ k

theorem initState3_inv (I : ImgU) : StateInv3 (initState3 I) := by
  constructor
  · refine ⟨?_, ?_, ?_, ?_, ?_, ?_, ?_, ?_, ?_⟩
    · rfl
    · intro k
      rw [initState3_nodeAt]
      split <;> decide
    · intro k q hk hq
      exfalso
      rw [initState3_nodeAt] at hk
      revert hk
      split <;> decide
    · intro k q hk hq
      exfalso
      rw [initState3_nodeAt] at hq
      revert hq
      split <;> simp [Node.fresh]
    · intro p c hc hco
      exfalso
      rw [initState3_nodeAt] at hc
      revert hc
      split <;> simp [Node.fresh]
    · intro p c hc hco
      exfalso
      rw [initState3_nodeAt] at hc
      revert hc
      split <;> simp [Node.fresh]
    · intro p c hc
      exfalso
      rw [initState3_nodeAt] at hc
      revert hc
      split <;> simp [Node.fresh]
    · intro k q hq
      exfalso
      rw [initState3_nodeAt] at hq
      revert hq
      split <;> simp [Node.fresh]
    · exact Nat.le.refl
  · intro e he
    have : e = (1, 0) := by
      simpa [initState3] using he
    rw [this]
    exact Nat.zero_lt_one

/-- Every successful part_003 extraction satisfies the arena invariant. -/
theorem extractRun3_inv {I : ImgU} {wf : Nat} {a : List Node}
    (h : extractRun3 I wf = .ok a) : ArenaInv3 a := by
  unfold extractRun3 at h
  split at h
  · simp at h
  · next s heq =>
    injection h with h2
    subst h2
    exact (extractRows3_inv wf _ _ (initState3 I) s (initState3_inv I) heq).arena

/-! ### Preservation of the part_002 arena invariant

The same development for the old `extractContours`: its root is typed
`vp::BACKGROUND_CONTOUR`, an outer contour hangs below the root or a hole
contour, and the scan has no rollback branch. -/

theorem inv2_of_weaken {a a2 : List Node}
    (hlen : a2.length = a.length)
    (hct : ∀ m, (nodeAt a2 m).ctype = (nodeAt a m).ctype)
    (hch : ∀ m x, x ∈ (nodeAt a2 m).children → x ∈ (nodeAt a m).children)
    (hpar : ∀ m, (nodeAt a2 m).parent = (nodeAt a m).parent ∨
      (nodeAt a2 m).parent = none)
    (hInv : ArenaInv2 a) : ArenaInv2 a2 := by
  refine ⟨?_, ?_, ?_, ?_, ?_, ?_, ?_, ?_, ?_, ?_⟩
  · rw [hct]; exact hInv.root
  · intro k hk
    exact hInv.bgRoot k (by rw [← hct]; exact hk)
  · rcases hpar 0 with hp | hp
    · rw [hp]; exact hInv.rootPar
    · exact hp
  · intro k q hk hq
    rcases hpar k with hp | hp
    · rcases hInv.parOuter k q (by rw [← hct]; exact hk) (by rw [← hp]; exact hq)
        with h1 | h1
      · left; rw [hct]; exact h1
      · right; exact h1
    · rw [hp] at hq; cases hq
  · intro k q hk hq
    rcases hpar k with hp | hp
    · rw [hct]
      exact hInv.parHole k q (by rw [← hct]; exact hk) (by rw [← hp]; exact hq)
    · rw [hp] at hq; cases hq
  · intro p c hc hco
    rcases hInv.edgeOuter p c (hch p c hc) (by rw [← hct]; exact hco) with h1 | h1
    · left; rw [hct]; exact h1
    · right; exact h1
  · intro p c hc hco
    rw [hct]
    exact hInv.edgeHole p c (hch p c hc) (by rw [← hct]; exact hco)
  · intro p c hc
    rw [hlen]
    exact hInv.childLt p c (hch p c hc)
  · intro k q hq
    rcases hpar k with hp | hp
    · rw [hlen]
      exact hInv.parLt k q (by rw [← hp]; exact hq)
    · rw [hp] at hq; cases hq
  · rw [hlen]; exact hInv.len1

theorem inv2_upPoints {a : List Node} (k : Nat) (pts : List (Int × Int))
    (hInv : ArenaInv2 a) :
    ArenaInv2 (upNode a k (fun n => { n with npoints := pts })) := by
  refine inv2_of_weaken (length_upNode _ _ _) ?_ ?_ ?_ hInv
  · intro m
    rw [nodeAt_upNode_any]
    split
    · next hm => rw [hm.1]
    · rfl
  · intro m x
    rw [nodeAt_upNode_any]
    split
    · next hm => rw [hm.1]; exact fun h => h
    · exact fun h => h
  · intro m
    rw [nodeAt_upNode_any]
    split
    · next hm => rw [hm.1]; left; rfl
    · left; rfl

theorem inv2_insert {a : List Node} (hInv : ArenaInv2 a) (τ : ContourType)
    (hτ : τ ≠ .background) {p : Nat} (hp : p < a.length)
    (hruleO : τ = .outer → (nodeAt a p).ctype = .hole ∨ p = 0)
    (hruleH : τ = .hole → (nodeAt a p).ctype = .outer) :
    ArenaInv2 (setParent
      (upNode (a ++ [Node.fresh]) a.length (fun n => { n with ctype := τ }))
      a.length p) := by
  have hlen : (setParent
      (upNode (a ++ [Node.fresh]) a.length (fun n => { n with ctype := τ }))
      a.length p).length = a.length + 1 := by
    rw [length_setParent, length_upNode]
    simp
  have hc1 : 1 ≤ a.length := hInv.len1
  refine ⟨?_, ?_, ?_, ?_, ?_, ?_, ?_, ?_, ?_, ?_⟩
  · rw [nodeAt_insert _ _ hp, if_neg (by omega)]
    by_cases h0 : 0 = p
    · rw [if_pos h0]
      show (nodeAt a p).ctype = ContourType.background
      rw [← h0]
      exact hInv.root
    · rw [if_neg h0]
      exact hInv.root
  · intro k hk
    rw [nodeAt_insert _ _ hp] at hk
    by_cases hkc : k = a.length
    · rw [if_pos hkc] at hk
      exact absurd hk hτ
    · rw [if_neg hkc] at hk
      by_cases hkp : k = p
      · rw [if_pos hkp] at hk
        have hk2 : (nodeAt a p).ctype = ContourType.background := hk
        have := hInv.bgRoot p hk2
        omega
      · rw [if_neg hkp] at hk
        exact hInv.bgRoot k hk
  · rw [nodeAt_insert _ _ hp, if_neg (by omega)]
    by_cases h0 : 0 = p
    · rw [if_pos h0]
      show (nodeAt a p).parent = none
      rw [← h0]
      exact hInv.rootPar
    · rw [if_neg h0]
      exact hInv.rootPar
  · intro k q hk hq
    rw [nodeAt_insert _ _ hp] at hk hq
    by_cases hkc : k = a.length
    · rw [if_pos hkc] at hk hq
      have hkt : τ = ContourType.outer := hk
      have hq2 : q = p := by
        have h3 : (some p : Option Nat) = some q := hq
        injection h3 with h4
        exact h4.symm
      rcases hruleO hkt with h1 | h1
      · left
        rw [hq2, nodeAt_insert _ _ hp, if_neg (by omega), if_pos rfl]
        show (nodeAt a p).ctype = ContourType.hole
        exact h1
      · right
        omega
    · rw [if_neg hkc] at hk hq
      by_cases hkp : k = p
      · rw [if_pos hkp] at hk hq
        have hk2 : (nodeAt a p).ctype = ContourType.outer := hk
        have hq2 : (nodeAt a p).parent = some q := hq
        have hql : q < a.length := hInv.parLt p q hq2
        rcases hInv.parOuter p q hk2 hq2 with h1 | h1
        · left
          rw [nodeAt_insert _ _ hp, if_neg (by omega)]
          by_cases hqp : q = p
          · rw [if_pos hqp]
            show (nodeAt a p).ctype = ContourType.hole
            rw [← hqp]
            exact h1
          · rw [if_neg hqp]
            exact h1
        · right; exact h1
      · rw [if_neg hkp] at hk hq
        have hql : q < a.length := hInv.parLt k q hq
        rcases hInv.parOuter k q hk hq with h1 | h1
        · left
          rw [nodeAt_insert _ _ hp, if_neg (by omega)]
          by_cases hqp : q = p
          · rw [if_pos hqp]
            show (nodeAt a p).ctype = ContourType.hole
            rw [← hqp]
            exact h1
          · rw [if_neg hqp]
            exact h1
        · right; exact h1
  · intro k q hk hq
    rw [nodeAt_insert _ _ hp] at hk hq
    by_cases hkc : k = a.length
    · rw [if_pos hkc] at hk hq
      have hkt : τ = ContourType.hole := hk
      have hq2 : q = p := by
        have h3 : (some p : Option Nat) = some q := hq
        injection h3 with h4
        exact h4.symm
      rw [hq2, nodeAt_insert _ _ hp, if_neg (by omega), if_pos rfl]
      show (nodeAt a p).ctype = ContourType.outer
      exact hruleH hkt
    · rw [if_neg hkc] at hk hq
      by_cases hkp : k = p
      · rw [if_pos hkp] at hk hq
        have hk2 : (nodeAt a p).ctype = ContourType.hole := hk
        have hq2 : (nodeAt a p).parent = some q := hq
        have hql : q < a.length := hInv.parLt p q hq2
        rw [nodeAt_insert _ _ hp, if_neg (by omega)]
        by_cases hqp : q = p
        · rw [if_pos hqp]
          show (nodeAt a p).ctype = ContourType.outer
          rw [← hqp]
          exact hInv.parHole p q hk2 hq2
        · rw [if_neg hqp]
          exact hInv.parHole p q hk2 hq2
      · rw [if_neg hkp] at hk hq
        have hql : q < a.length := hInv.parLt k q hq
        rw [nodeAt_insert _ _ hp, if_neg (by omega)]
        by_cases hqp : q = p
        · rw [if_pos hqp]
          show (nodeAt a p).ctype = ContourType.outer
          rw [← hqp]
          exact hInv.parHole k q hk hq
        · rw [if_neg hqp]
          exact hInv.parHole k q hk hq
  · intro pe ce hc hco
    rw [nodeAt_insert _ _ hp] at hc hco
    by_cases hpc : pe = a.length
    · rw [if_pos hpc] at hc
      simp at hc
    · rw [if_neg hpc] at hc
      by_cases hpp : pe = p
      · rw [if_pos hpp] at hc
        have hc2 : ce ∈ (nodeAt a p).children ++ [a.length] := hc
        rcases List.mem_append.1 hc2 with hold | hnew
        · have hcl : ce < a.length := hInv.childLt p ce hold
          rw [if_neg (by omega)] at hco
          have hco2 : (nodeAt a ce).ctype = ContourType.outer := by
            by_cases hcp : ce = p
            · rw [if_pos hcp] at hco
              rw [hcp]
              exact hco
            · rw [if_neg hcp] at hco
              exact hco
          rcases hInv.edgeOuter p ce hold hco2 with h1 | h1
          · left
            rw [nodeAt_insert _ _ hp, if_neg hpc, if_pos hpp]
            show (nodeAt a p).ctype = ContourType.hole
            exact h1
          · right
            omega
        · have hce : ce = a.length := by simpa using hnew
          rw [if_pos hce] at hco
          have hco2 : τ = ContourType.outer := hco
          rcases hruleO hco2 with h1 | h1
          · left
            rw [nodeAt_insert _ _ hp, if_neg hpc, if_pos hpp]
            show (nodeAt a p).ctype = ContourType.hole
            exact h1
          · right
            omega
      · rw [if_neg hpp] at hc
        have hcl : ce < a.length := hInv.childLt pe ce hc
        rw [if_neg (by omega)] at hco
        have hco2 : (nodeAt a ce).ctype = ContourType.outer := by
          by_cases hcp : ce = p
          · rw [if_pos hcp] at hco
            rw [hcp]
            exact hco
          · rw [if_neg hcp] at hco
            exact hco
        rcases hInv.edgeOuter pe ce hc hco2 with h1 | h1
        · left
          rw [nodeAt_insert _ _ hp, if_neg hpc, if_neg hpp]
          exact h1
        · right; exact h1
  · intro pe ce hc hco
    rw [nodeAt_insert _ _ hp] at hc hco ⊢
    by_cases hpc : pe = a.length
    · rw [if_pos hpc] at hc
      simp at hc
    · rw [if_neg hpc] at hc ⊢
      by_cases hpp : pe = p
      · rw [if_pos hpp] at hc ⊢
        have hc2 : ce ∈ (nodeAt a p).children ++ [a.length] := hc
        rcases List.mem_append.1 hc2 with hold | hnew
        · have hcl : ce < a.length := hInv.childLt p ce hold
          rw [if_neg (by omega)] at hco
          have hco2 : (nodeAt a ce).ctype = ContourType.hole := by
            by_cases hcp : ce = p
            · rw [if_pos hcp] at hco
              rw [hcp]
              exact hco
            · rw [if_neg hcp] at hco
              exact hco
          show (nodeAt a p).ctype = ContourType.outer
          exact hInv.edgeHole p ce hold hco2
        · have hce : ce = a.length := by simpa using hnew
          rw [if_pos hce] at hco
          have hco2 : τ = ContourType.hole := hco
          show (nodeAt a p).ctype = ContourType.outer
          exact hruleH hco2
      · rw [if_neg hpp] at hc ⊢
        have hcl : ce < a.length := hInv.childLt pe ce hc
        rw [if_neg (by omega)] at hco
        have hco2 : (nodeAt a ce).ctype = ContourType.hole := by
          by_cases hcp : ce = p
          · rw [if_pos hcp] at hco
            rw [hcp]
            exact hco
          · rw [if_neg hcp] at hco
            exact hco
        exact hInv.edgeHole pe ce hc hco2
  · intro pe ce hc
    rw [nodeAt_insert _ _ hp] at hc
    rw [hlen]
    by_cases hpc : pe = a.length
    · rw [if_pos hpc] at hc
      simp at hc
    · rw [if_neg hpc] at hc
      by_cases hpp : pe = p
      · rw [if_pos hpp] at hc
        have hc2 : ce ∈ (nodeAt a p).children ++ [a.length] := hc
        rcases List.mem_append.1 hc2 with hold | hnew
        · have := hInv.childLt p ce hold
          omega
        · have : ce = a.length := by simpa using hnew
          omega
      · rw [if_neg hpp] at hc
        have := hInv.childLt pe ce hc
        omega
  · intro k q hq
    rw [nodeAt_insert _ _ hp] at hq
    rw [hlen]
    by_cases hkc : k = a.length
    · rw [if_pos hkc] at hq
      have h3 : (some p : Option Nat) = some q := hq
      injection h3 with h4
      omega
    · rw [if_neg hkc] at hq
      by_cases hkp : k = p
      · rw [if_pos hkp] at hq
        have hq2 : (nodeAt a p).parent = some q := hq
        have := hInv.parLt p q hq2
        omega
      · rw [if_neg hkp] at hq
        have := hInv.parLt k q hq
        omega
  · rw [hlen]
    omega

theorem traceRecord2_inv {wf : Nat} {s : ExtractState} {i j : Nat}
    {fm : Int × Int} {b : Nat} (hb : b < s.arena.length)
    (hs : StateInv2 s) {s2 : ExtractState} :
    traceRecord2 wf s i j fm b = .ok s2 → StateInv2 s2 := by
  intro h
  unfold traceRecord2 at h
  split at h
  · simp at h
  · injection h with h2
    subst h2
    refine ⟨inv2_upPoints _ _ hs.arena, ?_⟩
    intro e he
    rw [length_upNode]
    rcases bmapSet_mem he with h1 | h1
    · exact hs.mapLt e h1
    · rw [h1]
      exact hb

/-- One scan cell preserves the part_002 state invariant. -/
theorem extractStep2_inv (wf : Nat) (s : ExtractState) (i j : Nat)
    (hs : StateInv2 s) {s2 : ExtractState} :
    extractStep2 wf s i j = .ok s2 → StateInv2 s2 := by
  intro h
  have hInv := hs.arena
  simp only [extractStep2] at h
  split at h
  · simp at h
  · next s3 heq =>
    injection h with h2
    have hs3 : StateInv2 s3 := by
      clear h2
      split at heq
      · split at heq
        · -- outer start
          split at heq
          · simp at heq
          · next bp hfind =>
            have hbp : bp < s.arena.length := by
              have := bmapFind_mem hfind
              exact hs.mapLt _ this
            split at heq
            · simp at heq
            · next a2 hpe =>
              have ha2 : ArenaInv2 a2 ∧ a2.length = s.arena.length + 1 := by
                have hbpa : nodeAt (upNode (s.arena ++ [Node.fresh]) s.arena.length
                    (fun n => { n with ctype := .outer })) bp = nodeAt s.arena bp := by
                  rw [nodeAt_typed, if_neg (by omega)]
                split at hpe
                · next hty =>
                  rw [hbpa] at hty
                  unfold setParentE at hpe
                  split at hpe
                  · next q hq =>
                    rw [hbpa] at hq
                    injection hpe with hpe2
                    subst hpe2
                    have hq2 := hInv.parOuter bp q hty hq
                    have hql : q < s.arena.length := hInv.parLt bp q hq
                    refine ⟨inv2_insert hInv .outer (by decide) hql
                      (fun _ => hq2) (fun hc => absurd hc (by decide)), ?_⟩
                    rw [length_setParent, length_upNode]
                    simp
                  · cases hpe
                · next hty =>
                  rw [hbpa] at hty
                  injection hpe with hpe2
                  subst hpe2
                  refine ⟨inv2_insert hInv .outer (by decide) hbp
                    (fun _ => Or.inl hty) (fun hc => absurd hc (by decide)), ?_⟩
                  rw [length_setParent, length_upNode]
                  simp
                · next hty =>
                  rw [hbpa] at hty
                  injection hpe with hpe2
                  subst hpe2
                  refine ⟨inv2_insert hInv .outer (by decide) hbp
                    (fun _ => Or.inr (hInv.bgRoot bp hty))
                    (fun hc => absurd hc (by decide)), ?_⟩
                  rw [length_setParent, length_upNode]
                  simp
              have hsmid : StateInv2 { s with nbd := s.nbd + 1, arena := a2 } := by
                refine ⟨ha2.1, ?_⟩
                intro e he
                have h4 := hs.mapLt e he
                have h5 := ha2.2
                show e.2 < a2.length
                omega
              refine traceRecord2_inv ?_ hsmid heq
              show s.arena.length < a2.length
              rw [ha2.2]
              omega
        · -- hole start
          split at heq
          · simp at heq
          · next bp hfind =>
            have hbp : bp < s.arena.length := by
              have := bmapFind_mem hfind
              exact hs.mapLt _ this
            split at heq
            · simp at heq
            · next a2 hpe =>
              have ha2 : ArenaInv2 a2 ∧ a2.length = s.arena.length + 1 := by
                have hbpa : nodeAt (upNode (s.arena ++ [Node.fresh]) s.arena.length
                    (fun n => { n with ctype := .hole })) bp = nodeAt s.arena bp := by
                  rw [nodeAt_typed, if_neg (by omega)]
                split at hpe
                · next hty =>
                  rw [hbpa] at hty
                  injection hpe with hpe2
                  subst hpe2
                  refine ⟨inv2_insert hInv .hole (by decide) hbp
                    (fun hc => absurd hc (by decide)) (fun _ => hty), ?_⟩
                  rw [length_setParent, length_upNode]
                  simp
                · next hty =>
                  rw [hbpa] at hty
                  unfold setParentE at hpe
                  split at hpe
                  · next q hq =>
                    rw [hbpa] at hq
                    injection hpe with hpe2
                    subst hpe2
                    have hq2 : (nodeAt s.arena q).ctype = .outer :=
                      hInv.parHole bp q hty hq
                    have hql : q < s.arena.length := hInv.parLt bp q hq
                    refine ⟨inv2_insert hInv .hole (by decide)
                      hql (fun hc => absurd hc (by decide)) (fun _ => hq2), ?_⟩
                    rw [length_setParent, length_upNode]
                    simp
                  · cases hpe
                · next hty =>
                  rw [hbpa] at hty
                  unfold setParentE at hpe
                  split at hpe
                  · next q hq =>
                    rw [hbpa] at hq
                    have h0 : bp = 0 := hInv.bgRoot bp hty
                    rw [h0, hInv.rootPar] at hq
                    cases hq
                  · cases hpe
              have hsmid : StateInv2
                  { s with nbd := s.nbd + 1,
                           lnbd := if 1 < s.img.get i j % 256 then s.img.get i j % 256
                                   else s.lnbd,
                           arena := a2 } := by
                refine ⟨ha2.1, ?_⟩
                intro e he
                have h4 := hs.mapLt e he
                have h5 := ha2.2
                show e.2 < a2.length
                omega
              refine traceRecord2_inv ?_ hsmid heq
              show s.arena.length < a2.length
              rw [ha2.2]
              omega
      · injection heq with heq2
        subst heq2
        exact hs
    subst h2
    split
    · exact ⟨hs3.arena, hs3.mapLt⟩
    · exact hs3

theorem extractRowCells2_inv (wf i : Nat) :
    ∀ (cols : List Nat) (s s2 : ExtractState), StateInv2 s →
      extractRowCells2 wf i cols s = .ok s2 → StateInv2 s2 := by
  intro cols
  induction cols with
  | nil =>
    intro s s2 hs h
    injection h with h2
    subst h2
    exact hs
  | cons j rest ih =>
    intro s s2 hs h
    simp only [extractRowCells2] at h
    split at h
    · simp at h
    · next s3 heq =>
      exact ih s3 s2 (extractStep2_inv wf s i j hs heq) h

theorem extractRows2_inv (wf : Nat) (cols : List Nat) :
    ∀ (rows : List Nat) (s s2 : ExtractState), StateInv2 s →
      extractRows2 wf cols rows s = .ok s2 → StateInv2 s2 := by
  intro rows
  induction rows with
  | nil =>
    intro s s2 hs h
    injection h with h2
    subst h2
    exact hs
  | cons i rest ih =>
    intro s s2 hs h
    simp only [extractRows2] at h
    split at h
    · simp at h
    · next s3 heq =>
      have hs3 : StateInv2 { s with lnbd := 1 } := ⟨hs.arena, hs.mapLt⟩
      refine ih s3 s2 (extractRowCells2_inv wf i cols { s with lnbd := 1 } s3 hs3 heq) h

theorem initState2_nodeAt (I : ImgU) (k : Nat) :
    nodeAt (initState2 I).arena k =
      if k = 0 then
        { ctype := ContourType.background, parent := none, children := [], npoints := [] }
      else Node.fresh :=
  nodeAt_singleton _ k

theorem initState2_inv (I : ImgU) : StateInv2 (initState2 I) := by
  constructor
  · refine ⟨?_, ?_, ?_, ?_, ?_, ?_, ?_, ?_, ?_, ?_⟩
    · rw [initState2_nodeAt]
      rfl
    · intro k hk
      rw [initState2_nodeAt] at hk
      revert hk
      split
      · next h0 => intro _; exact h0
      · intro hk
        exact absurd hk (by decide)
    · rw [initState2_nodeAt]
      rfl
    · intro k q hk hq
      exfalso
      rw [initState2_nodeAt] at hk
      revert hk
      split <;> decide
    · intro k q hk hq
      exfalso
      rw [initState2_nodeAt] at hq
      revert hq
      split <;> simp [Node.fresh]
    · intro p c hc hco
      exfalso
      rw [initState2_nodeAt] at hc
      revert hc
      split <;> simp [Node.fresh]
    · intro p c hc hco
      exfalso
      rw [initState2_nodeAt] at hc
      revert hc
      split <;> simp [Node.fresh]
    · intro p c hc
      exfalso
      rw [initState2_nodeAt] at hc
      revert hc
      split <;> simp [Node.fresh]
    · intro k q hq
      exfalso
      rw [initState2_nodeAt] at hq
      revert hq
      split <;> simp [Node.fresh]
    · exact Nat.le.refl
  · intro e he
    have : e = (1, 0) := by
      simpa [initState2] using he
    rw [this]
    exact Nat.zero_lt_one

/-- Every successful part_002 extraction satisfies its arena invariant. -/
theorem extractRun2_inv {I : ImgU} {wf : Nat} {a : List Node}
    (h : extractRun2 I wf = .ok a) : ArenaInv2 a := by
  unfold extractRun2 at h
  split at h
  · simp at h
  · next s heq =>
    injection h with h2
    subst h2
    exact (extractRows2_inv wf _ _ (initState2 I) s (initState2_inv I) heq).arena

/-- **C10**.  `vpDirection::active` is total and never yields an
out-of-bounds coordinate: for every int image, every point and every
direction the result is the invalid sentinel (-1,-1) or a coordinate
inside the raster, and a valid coordinate is returned only when the stored
int pixel there, truncated to an unsigned byte (mod 256), is nonzero — so
an int pixel holding a nonzero multiple of 256 is treated as background. -/
theorem c10_active_safe (I : ImgI) (p : Int × Int) (d : Dir) :
    d.active I p = (-1, -1) ∨
    ∃ r c : Nat, d.active I p = ((r : Int), (c : Int)) ∧ r < I.h ∧ c < I.w ∧
      (I.get r c) % 256 ≠ 0 := by
  unfold Dir.active
  by_cases hb : toU32 (p.2 + dirx d) ≥ I.w ∨ toU32 (p.1 + diry d) ≥ I.h
  · left
    simp [hb]
  · push_neg at hb
    by_cases hp : (I.get (toU32 (p.1 + diry d)) (toU32 (p.2 + dirx d))) % 256 ≠ 0
    · right
      refine ⟨toU32 (p.1 + diry d), toU32 (p.2 + dirx d), ?_, hb.2, hb.1, hp⟩
      simp only [if_neg (by omega : ¬ (toU32 (p.2 + dirx d) ≥ I.w ∨
        toU32 (p.1 + diry d) ≥ I.h))]
      simp [hp]
    · left
      simp only [if_neg (by omega : ¬ (toU32 (p.2 + dirx d) ≥ I.w ∨
        toU32 (p.1 + diry d) ≥ I.h))]
      simp at hp
      simp [hp]

/-- **C3** (amended).  What each variant actually returns: the part_003
scan roots its tree in a node typed `vp::CONTOUR_HOLE` and produces no
background-typed node anywhere, while the part_002 scan roots its tree in
a node typed `vp::BACKGROUND_CONTOUR` and keeps that type unique — only in
the old variant is the root a background node. -/
theorem c3_root_kind_amended :
    (∀ (I : ImgU) (wf : Nat) (a : List Node), extractRun3 I wf = .ok a →
      (nodeAt a 0).ctype = .hole ∧ ∀ k, (nodeAt a k).ctype ≠ .background) ∧
    (∀ (I : ImgU) (wf : Nat) (a : List Node), extractRun2 I wf = .ok a →
      (nodeAt a 0).ctype = .background ∧
        ∀ k, (nodeAt a k).ctype = .background → k = 0) := by
  constructor
  · intro I wf a h
    exact ⟨(extractRun3_inv h).root, (extractRun3_inv h).noBg⟩
  · intro I wf a h
    exact ⟨(extractRun2_inv h).root, (extractRun2_inv h).bgRoot⟩

/-- Witness for C3 (amended) at the concrete annulus image: the part_003
root is hole-typed, the part_002 root is background-typed. -/
theorem c3_root_kind_amended_witness :
    (nodeAt annulus3Arena 0).ctype = ContourType.hole ∧
    (nodeAt annulus2Arena 0).ctype = ContourType.background :=
  ⟨(c3_root_kind_amended.1 annulus3 200 annulus3Arena (by decide)).1,
   (c3_root_kind_amended.2 annulus3 200 annulus2Arena (by decide)).1⟩

/-- **C6** (amended).  The parent of every Outer contour is never another
Outer contour: in the part_003 variant it is always a hole-typed node (the
hole-typed root or a Hole contour), and in the part_002 variant it is a
Hole contour or the background-typed root. -/
theorem c6_outer_parent_amended :
    (∀ (I : ImgU) (wf : Nat) (a : List Node), extractRun3 I wf = .ok a →
      ∀ c q, (nodeAt a c).ctype = .outer → (nodeAt a c).parent = some q →
        (nodeAt a q).ctype = .hole) ∧
    (∀ (I : ImgU) (wf : Nat) (a : List Node), extractRun2 I wf = .ok a →
      ∀ c q, (nodeAt a c).ctype = .outer → (nodeAt a c).parent = some q →
        (nodeAt a q).ctype = .hole ∨ q = 0) := by
  constructor
  · intro I wf a h
    exact (extractRun3_inv h).parOuter
  · intro I wf a h
    exact (extractRun2_inv h).parOuter

/-- Witness for C6 (amended) at the concrete annulus image: the Outer
contour (node 1) has the root (node 0) as parent, hole-typed in the
part_003 arena and background-typed (the root disjunct) in part_002. -/
theorem c6_outer_parent_amended_witness :
    (nodeAt annulus3Arena 0).ctype = ContourType.hole ∧
    ((nodeAt annulus2Arena 0).ctype = ContourType.hole ∨ (0 : Nat) = 0) :=
  ⟨c6_outer_parent_amended.1 annulus3 200 annulus3Arena (by decide) 1 0
     (by decide) (by decide),
   c6_outer_parent_amended.2 annulus3 200 annulus2Arena (by decide) 1 0
     (by decide) (by decide)⟩

/-- **C7**.  In every tree returned by the part_003 `extractContours`, the
parent of a Hole contour — through the back-reference and through the
children lists alike — is always an Outer contour; in particular a Hole
contour is never the direct parent of another Hole contour, and the claim
"BackgroundRoot or an Outer contour" holds with the Outer disjunct. -/
theorem c7_hole_parent (I : ImgU) (wf : Nat) (a : List Node)
    (hok : extractRun3 I wf = .ok a) :
    (∀ c q, (nodeAt a c).ctype = .hole → (nodeAt a c).parent = some q →
      (nodeAt a q).ctype = .outer) ∧
    (∀ p c, c ∈ (nodeAt a p).children → (nodeAt a c).ctype = .hole →
      (nodeAt a p).ctype = .outer) :=
  ⟨(extractRun3_inv hok).parHole, (extractRun3_inv hok).edgeHole⟩

/-- Witness for C7 at the concrete annulus image: the Hole contour (node
2) has the Outer contour (node 1) as its parent. -/
theorem c7_hole_parent_witness :
    (nodeAt annulus3Arena 1).ctype = ContourType.outer :=
  (c7_hole_parent annulus3 200 annulus3Arena (by decide)).1 2 1
    (by decide) (by decide)

/-! ### Faithfulness of the copy-on-entry loops (claim C9) -/

theorem upd_spec (f : Nat × Nat → Nat) (p : Nat × Nat) (v : Nat) (q : Nat × Nat) :
    upd f p v q = if q = p then v else f q := rfl

theorem intCopyFold_length (I : ImgU) (n : Nat) (acc : List Int) :
    ((List.range n).foldl
      (fun a c => a.set c ((I.data.getD c 0 : Nat) : Int)) acc).length =
      acc.length := by
  induction n with
  | zero => rfl
  | succ n ih =>
    rw [List.range_succ, List.foldl_append, List.foldl_cons, List.foldl_nil,
      List.length_set, ih]

theorem intCopyFold_getD (I : ImgU) (n : Nat) (acc : List Int) (k : Nat) :
    ((List.range n).foldl
      (fun a c => a.set c ((I.data.getD c 0 : Nat) : Int)) acc).getD k 0 =
      if k < n ∧ k < acc.length then ((I.data.getD k 0 : Nat) : Int)
      else acc.getD k 0 := by
  induction n with
  | zero => simp
  | succ n ih =>
    rw [List.range_succ, List.foldl_append, List.foldl_cons, List.foldl_nil]
    by_cases hk : k = n
    · subst hk
      by_cases hkl : k < acc.length
      · rw [List.getD_eq_getElem?_getD,
          List.getElem?_set_self (by rw [intCopyFold_length]; exact hkl)]
        rw [if_pos ⟨by omega, hkl⟩]
        rfl
      · rw [List.set_eq_of_length_le (by rw [intCopyFold_length]; omega), ih,
          if_neg (fun hc => hkl hc.2), if_neg (fun hc => hkl hc.2)]
    · rw [List.getD_eq_getElem?_getD, List.getElem?_set_ne (fun hc => hk hc.symm),
        ← List.getD_eq_getElem?_getD, ih]
      by_cases h1 : k < n ∧ k < acc.length
      · rw [if_pos h1, if_pos ⟨by omega, h1.2⟩]
      · rw [if_neg h1, if_neg (fun hc => h1 ⟨by omega, hc.2⟩)]

theorem intCopyLoop_get (I : ImgU) {i j : Nat} (hi : i < I.h) (hj : j < I.w) :
    (intCopyLoop I).getD (i * I.w + j) 0 = (intCopy I).pix (i, j) := by
  unfold intCopyLoop
  rw [intCopyFold_getD]
  have hk : i * I.w + j < I.h * I.w := by
    have h1 : i * I.w + j < (i + 1) * I.w := by
      rw [Nat.succ_mul]
      omega
    have h2 : (i + 1) * I.w ≤ I.h * I.w := Nat.mul_le_mul_right _ (by omega)
    omega
  rw [if_pos ⟨hk, by simpa using hk⟩]
  show _ = ((I.get i j : Nat) : Int)
  unfold ImgU.get
  rw [if_pos ⟨hi, hj⟩]

theorem zeroFold_spec (i n : Nat) (f : Nat × Nat → Nat) (q : Nat × Nat) :
    ((List.range n).foldl (fun g j => upd g (i, j) 0) f) q =
      if q.1 = i ∧ q.2 < n then 0 else f q := by
  induction n with
  | zero => simp
  | succ n ih =>
    rw [List.range_succ, List.foldl_append, List.foldl_cons, List.foldl_nil,
      upd_spec]
    by_cases hq : q = (i, n)
    · rw [if_pos hq, if_pos (by rw [hq]; exact ⟨rfl, by omega⟩)]
    · rw [if_neg hq, ih]
      by_cases h1 : q.1 = i ∧ q.2 < n
      · rw [if_pos h1, if_pos ⟨h1.1, by omega⟩]
      · rw [if_neg h1, if_neg ?_]
        rintro ⟨ha, hb⟩
        have h2 : q.2 ≠ n := by
          intro hc
          exact hq (by cases q; simp_all)
        exact h1 ⟨ha, by omega⟩

theorem copyFold_spec (I : ImgU) (i n : Nat) (f : Nat × Nat → Nat) (q : Nat × Nat) :
    ((List.range n).foldl (fun g j => upd g (i, j + 1) (I.get (i - 1) j)) f) q =
      if q.1 = i ∧ 1 ≤ q.2 ∧ q.2 < n + 1 then I.get (i - 1) (q.2 - 1) else f q := by
  induction n with
  | zero =>
    simp only [List.range_zero, List.foldl_nil]
    rw [if_neg (by omega)]
  | succ n ih =>
    rw [List.range_succ, List.foldl_append, List.foldl_cons, List.foldl_nil,
      upd_spec]
    by_cases hq : q = (i, n + 1)
    · rw [if_pos hq, if_pos (by rw [hq]; exact ⟨rfl, by omega, by omega⟩)]
      rw [hq]
      simp
    · rw [if_neg hq, ih]
      by_cases h1 : q.1 = i ∧ 1 ≤ q.2 ∧ q.2 < n + 1
      · rw [if_pos h1, if_pos ⟨h1.1, h1.2.1, by omega⟩]
      · rw [if_neg h1, if_neg ?_]
        rintro ⟨ha, hb, hc⟩
        have h2 : q.2 ≠ n + 1 := by
          intro hd
          exact hq (by cases q; simp_all)
        exact h1 ⟨ha, hb, by omega⟩

theorem padRow_spec (I : ImgU) {i : Nat} (hi : i ≤ I.h + 1)
    (f : Nat × Nat → Nat) (q : Nat × Nat) :
    padRow I i f q = if q.1 = i ∧ q.2 < I.w + 2 then padImage I q else f q := by
  unfold padRow
  by_cases hb : i = 0 ∨ i = I.h + 1
  · rw [if_pos hb]
    unfold padZeroRow
    rw [zeroFold_spec]
    by_cases h1 : q.1 = i ∧ q.2 < I.w + 2
    · rw [if_pos h1, if_pos h1]
      unfold padImage
      rw [if_neg ?_]
      rcases hb with h0 | h0 <;> (rintro ⟨c1, c2, c3, c4⟩; omega)
    · rw [if_neg h1, if_neg h1]
  · rw [if_neg hb]
    have h0 : i ≠ 0 := fun hc => hb (Or.inl hc)
    have hh : i ≠ I.h + 1 := fun hc => hb (Or.inr hc)
    rw [upd_spec]
    by_cases hq1 : q = (i, I.w + 1)
    · rw [if_pos hq1, if_pos (by rw [hq1]; exact ⟨rfl, by omega⟩)]
      unfold padImage
      rw [if_neg ?_]
      rintro ⟨c1, c2, c3, c4⟩
      rw [hq1] at c4
      omega
    · rw [if_neg hq1]
      unfold padCopyRow
      rw [copyFold_spec]
      by_cases h2 : q.1 = i ∧ 1 ≤ q.2 ∧ q.2 < I.w + 1
      · rw [if_pos h2, if_pos ⟨h2.1, by omega⟩]
        unfold padImage
        rw [if_pos ⟨by omega, by omega, by omega, by omega⟩, h2.1]
      · rw [if_neg h2, upd_spec]
        by_cases hq0 : q = (i, 0)
        · rw [if_pos hq0, if_pos (by rw [hq0]; exact ⟨rfl, by omega⟩)]
          unfold padImage
          rw [if_neg ?_]
          rintro ⟨c1, c2, c3, c4⟩
          rw [hq0] at c3
          omega
        · rw [if_neg hq0, if_neg ?_]
          rintro ⟨ha, hb2⟩
          have h3 : q.2 ≠ 0 := by
            intro hc
            exact hq0 (by cases q; simp_all)
          have h4 : q.2 ≠ I.w + 1 := by
            intro hc
            exact hq1 (by cases q; simp_all)
          exact h2 ⟨ha, by omega, by omega⟩

theorem padFold_spec (I : ImgU) (m : Nat) (hm : m ≤ I.h + 2) (q : Nat × Nat) :
    ((List.range m).foldl (fun f i => padRow I i f) (fun _ => 0)) q =
      if q.1 < m ∧ q.2 < I.w + 2 then padImage I q else 0 := by
  induction m with
  | zero => simp
  | succ n ih =>
    rw [List.range_succ, List.foldl_append, List.foldl_cons, List.foldl_nil]
    rw [padRow_spec I (by omega) _ q]
    by_cases h1 : q.1 = n ∧ q.2 < I.w + 2
    · rw [if_pos h1, if_pos ⟨by omega, h1.2⟩]
    · rw [if_neg h1, ih (by omega)]
      by_cases h2 : q.1 < n ∧ q.2 < I.w + 2
      · rw [if_pos h2, if_pos ⟨by omega, h2.2⟩]
      · rw [if_neg h2, if_neg ?_]
        rintro ⟨ha, hb⟩
        have h3 : q.1 ≠ n := fun hc => h1 ⟨hc, hb⟩
        exact h2 ⟨by omega, hb⟩

theorem padLoop_eq_padImage (I : ImgU) (q : Nat × Nat) :
    padLoop I q = padImage I q := by
  unfold padLoop
  rw [padFold_spec I (I.h + 2) (le_refl _) q]
  by_cases h : q.1 < I.h + 2 ∧ q.2 < I.w + 2
  · rw [if_pos h]
  · rw [if_neg h]
    unfold padImage
    rw [if_neg ?_]
    rintro ⟨c1, c2, c3, c4⟩
    exact h ⟨by omega, by omega⟩

/-- **C9**.  Copy-on-entry: the flat `bitmap` copy loop of the part_003
`extractContours` produces exactly the working `vpImage<int>` the trace
operates on, the copy-and-add-border loop of the two labelers produces
exactly the padded working raster they scan, and each of the three
operations reads the caller's image only through its pixel values — two
callers whose rasters agree pixelwise are given identical results, so the
call leaves the caller's raster unchanged and works on its own copy. -/
theorem c9_copy_on_entry :
    (∀ (I : ImgU) (i j : Nat), i < I.h → j < I.w →
      (intCopyLoop I).getD (i * I.w + j) 0 = (intCopy I).pix (i, j)) ∧
    (∀ (I : ImgU) (q : Nat × Nat), padLoop I q = padImage I q) ∧
    (∀ (I I2 : ImgU) (conn : Connexity) (wf : Nat),
      I.h = I2.h → I.w = I2.w → (∀ i j, I.get i j = I2.get i j) →
      ccRun I conn = ccRun I2 conn ∧ cc2Run I conn = cc2Run I2 conn ∧
      extractRun3 I wf = extractRun3 I2 wf) := by
  refine ⟨fun I i j hi hj => intCopyLoop_get I hi hj,
          fun I q => padLoop_eq_padImage I q, ?_⟩
  intro I I2 conn wf hh hw hget
  have hpad : padImage I = padImage I2 := by
    funext q
    unfold padImage
    rw [← hh, ← hw, hget]
  have hic : intCopy I = intCopy I2 := by
    unfold intCopy
    rw [← hh, ← hw]
    refine congrArg _ ?_
    funext p
    rw [hget]
  refine ⟨?_, ?_, ?_⟩
  · unfold ccRun
    rw [← hh, ← hw, hpad]
  · unfold cc2Run
    rw [← hh, ← hw, hpad]
  · unfold extractRun3 initState3
    rw [← hh, ← hw, hic]

/-- Witness for C9 at concrete inputs: one interior pixel of the flat
copy, one interior pixel of the padded copy, and the pixel-dependence
statement applied to a raster and itself. -/
theorem c9_copy_on_entry_witness :
    (intCopyLoop annulus3).getD (1 * 3 + 2) 0 = (intCopy annulus3).pix (1, 2) ∧
    padLoop annulus3 (1, 1) = padImage annulus3 (1, 1) ∧
    ccRun imgC1 .four = ccRun imgC1 .four :=
  ⟨c9_copy_on_entry.1 annulus3 1 2 (by decide) (by decide),
   c9_copy_on_entry.2.1 annulus3 (1, 1),
   (c9_copy_on_entry.2.2 imgC1 imgC1 .four 10 rfl rfl (fun i j => rfl)).1⟩

/-! ### Correctness of the expansion labeler (claim C2) -/

theorem adjC_symm {conn : Connexity} {a b : Nat × Nat} (h : adjC conn a b) :
    adjC conn b a := by
  cases conn <;> simp only [adjC, adj4, adj8] at h ⊢ <;> omega

theorem adjC_irrefl {conn : Connexity} {a : Nat × Nat} (h : adjC conn a a) :
    False := by
  cases conn <;> simp only [adjC, adj4, adj8] at h <;> omega

theorem sameValStep_symm {v : Nat × Nat → Nat} {conn : Connexity}
    {a b : Nat × Nat} (h : sameValStep v conn a b) : sameValStep v conn b a :=
  ⟨adjC_symm h.1, h.2.1.symm, h.2.1 ▸ h.2.2⟩

theorem connectedVia_symm {v : Nat × Nat → Nat} {conn : Connexity}
    {a b : Nat × Nat} (h : connectedVia v conn a b) : connectedVia v conn b a := by
  induction h with
  | refl => exact Relation.ReflTransGen.refl
  | tail hxm hstep ih => exact Relation.ReflTransGen.head (sameValStep_symm hstep) ih

theorem mem_getNeighbors_iff (f : Nat × Nat → Nat) (conn : Connexity)
    (p c : Nat × Nat) :
    c ∈ getNeighbors f conn p ↔ adjC conn p c ∧ f c = f p := by
  unfold getNeighbors
  rw [List.mem_filterMap]
  cases conn
  case four =>
    constructor
    · rintro ⟨d, hd, hcond⟩
      simp only [neighborOffsets, List.mem_cons, List.not_mem_nil, or_false] at hd
      rcases hd with rfl | rfl | rfl | rfl <;>
      · simp only [] at hcond
        split at hcond
        · next hcnd =>
          injection hcond with hc
          subst hc
          refine ⟨?_, hcnd.2.2⟩
          simp only [adjC, adj4]
          omega
        · cases hcond
    · rintro ⟨hadj, hval⟩
      simp only [adjC, adj4] at hadj
      rcases hadj with ⟨h1, h2 | h2⟩ | ⟨h1, h2 | h2⟩
      · refine ⟨(0, 1), by simp [neighborOffsets], ?_⟩
        have hcc : (((((p.1 : Int)) + 0).toNat, (((p.2 : Int)) + 1).toNat) : Nat × Nat)
            = c := by
          cases c
          simp only [Prod.mk.injEq]
          constructor <;> omega
        simp only []
        rw [if_pos ⟨by omega, by omega, by rw [hcc]; exact hval⟩, hcc]
      · refine ⟨(0, -1), by simp [neighborOffsets], ?_⟩
        have hcc : (((((p.1 : Int)) + 0).toNat, (((p.2 : Int)) + (-1)).toNat) : Nat × Nat)
            = c := by
          cases c
          simp only [Prod.mk.injEq]
          constructor <;> omega
        simp only []
        rw [if_pos ⟨by omega, by omega, by rw [hcc]; exact hval⟩, hcc]
      · refine ⟨(1, 0), by simp [neighborOffsets], ?_⟩
        have hcc : (((((p.1 : Int)) + 1).toNat, (((p.2 : Int)) + 0).toNat) : Nat × Nat)
            = c := by
          cases c
          simp only [Prod.mk.injEq]
          constructor <;> omega
        simp only []
        rw [if_pos ⟨by omega, by omega, by rw [hcc]; exact hval⟩, hcc]
      · refine ⟨(-1, 0), by simp [neighborOffsets], ?_⟩
        have hcc : (((((p.1 : Int)) + (-1)).toNat, (((p.2 : Int)) + 0).toNat) : Nat × Nat)
            = c := by
          cases c
          simp only [Prod.mk.injEq]
          constructor <;> omega
        simp only []
        rw [if_pos ⟨by omega, by omega, by rw [hcc]; exact hval⟩, hcc]
  case eight =>
    constructor
    · rintro ⟨d, hd, hcond⟩
      simp only [neighborOffsets, List.mem_cons, List.not_mem_nil, or_false] at hd
      rcases hd with rfl | rfl | rfl | rfl | rfl | rfl | rfl | rfl <;>
      · simp only [] at hcond
        split at hcond
        · next hcnd =>
          injection hcond with hc
          subst hc
          refine ⟨?_, hcnd.2.2⟩
          simp only [adjC, adj8, adj4]
          omega
        · cases hcond
    · rintro ⟨hadj, hval⟩
      simp only [adjC, adj8, adj4] at hadj
      rcases hadj with (⟨h1, h2 | h2⟩ | ⟨h1, h2 | h2⟩) | ⟨h1 | h1, h2 | h2⟩
      · refine ⟨(0, 1), by simp [neighborOffsets], ?_⟩
        have hcc : (((((p.1 : Int)) + 0).toNat, (((p.2 : Int)) + 1).toNat) : Nat × Nat)
            = c := by
          cases c
          simp only [Prod.mk.injEq]
          constructor <;> omega
        simp only []
        rw [if_pos ⟨by omega, by omega, by rw [hcc]; exact hval⟩, hcc]
      · refine ⟨(0, -1), by simp [neighborOffsets], ?_⟩
        have hcc : (((((p.1 : Int)) + 0).toNat, (((p.2 : Int)) + (-1)).toNat) : Nat × Nat)
            = c := by
          cases c
          simp only [Prod.mk.injEq]
          constructor <;> omega
        simp only []
        rw [if_pos ⟨by omega, by omega, by rw [hcc]; exact hval⟩, hcc]
      · refine ⟨(1, 0), by simp [neighborOffsets], ?_⟩
        have hcc : (((((p.1 : Int)) + 1).toNat, (((p.2 : Int)) + 0).toNat) : Nat × Nat)
            = c := by
          cases c
          simp only [Prod.mk.injEq]
          constructor <;> omega
        simp only []
        rw [if_pos ⟨by omega, by omega, by rw [hcc]; exact hval⟩, hcc]
      · refine ⟨(-1, 0), by simp [neighborOffsets], ?_⟩
        have hcc : (((((p.1 : Int)) + (-1)).toNat, (((p.2 : Int)) + 0).toNat) : Nat × Nat)
            = c := by
          cases c
          simp only [Prod.mk.injEq]
          constructor <;> omega
        simp only []
        rw [if_pos ⟨by omega, by omega, by rw [hcc]; exact hval⟩, hcc]
      · refine ⟨(1, 1), by simp [neighborOffsets], ?_⟩
        have hcc : (((((p.1 : Int)) + 1).toNat, (((p.2 : Int)) + 1).toNat) : Nat × Nat)
            = c := by
          cases c
          simp only [Prod.mk.injEq]
          constructor <;> omega
        simp only []
        rw [if_pos ⟨by omega, by omega, by rw [hcc]; exact hval⟩, hcc]
      · refine ⟨(1, -1), by simp [neighborOffsets], ?_⟩
        have hcc : (((((p.1 : Int)) + 1).toNat, (((p.2 : Int)) + (-1)).toNat) : Nat × Nat)
            = c := by
          cases c
          simp only [Prod.mk.injEq]
          constructor <;> omega
        simp only []
        rw [if_pos ⟨by omega, by omega, by rw [hcc]; exact hval⟩, hcc]
      · refine ⟨(-1, 1), by simp [neighborOffsets], ?_⟩
        have hcc : (((((p.1 : Int)) + (-1)).toNat, (((p.2 : Int)) + 1).toNat) : Nat × Nat)
            = c := by
          cases c
          simp only [Prod.mk.injEq]
          constructor <;> omega
        simp only []
        rw [if_pos ⟨by omega, by omega, by rw [hcc]; exact hval⟩, hcc]
      · refine ⟨(-1, -1), by simp [neighborOffsets], ?_⟩
        have hcc : (((((p.1 : Int)) + (-1)).toNat, (((p.2 : Int)) + (-1)).toNat) : Nat × Nat)
            = c := by
          cases c
          simp only [Prod.mk.injEq]
          constructor <;> omega
        simp only []
        rw [if_pos ⟨by omega, by omega, by rw [hcc]; exact hval⟩, hcc]

theorem getNeighbors_length_le (f : Nat × Nat → Nat) (conn : Connexity)
    (p : Nat × Nat) : (getNeighbors f conn p).length ≤ 8 := by
  unfold getNeighbors
  refine le_trans (List.length_filterMap_le _ _) ?_
  cases conn <;> simp [neighborOffsets]

theorem countP_upd_zero (f : Nat × Nat → Nat) (p : Nat × Nat) (hf : f p ≠ 0) :
    ∀ l : List (Nat × Nat), l.Nodup → p ∈ l →
      l.countP (fun q => upd f p 0 q ≠ 0) + 1 = l.countP (fun q => f q ≠ 0) := by
  intro l
  induction l with
  | nil =>
    intro _ hp
    cases hp
  | cons a t ih =>
    intro hnd hp
    simp only [List.countP_cons]
    rcases List.mem_cons.1 hp with h1 | h1
    · subst h1
      have hpt : p ∉ t := (List.nodup_cons.1 hnd).1
      have htail : List.countP (fun q => decide (upd f p 0 q ≠ 0)) t =
          List.countP (fun q => decide (f q ≠ 0)) t := by
        apply List.countP_congr
        intro x hx
        have hxp : x ≠ p := fun hc => hpt (hc ▸ hx)
        simp [upd, hxp]
      rw [htail]
      have h2 : decide (upd f p 0 p ≠ 0) = false := by simp [upd]
      have h3 : decide (f p ≠ 0) = true := by simpa using hf
      rw [h2, h3]
      simp
    · have hap : a ≠ p := fun hc => (List.nodup_cons.1 hnd).1 (hc ▸ h1)
      have ih2 := ih (List.nodup_cons.1 hnd).2 h1
      have hua : decide (upd f p 0 a ≠ 0) = decide (f a ≠ 0) := by
        simp [upd, hap]
      rw [hua]
      omega

theorem nzCount_upd {h w : Nat} {f : Nat × Nat → Nat} {p : Nat × Nat}
    (hp1 : p.1 < h + 2) (hp2 : p.2 < w + 2) (hf : f p ≠ 0) :
    nzCount h w (upd f p 0) + 1 = nzCount h w f := by
  unfold nzCount
  exact countP_upd_zero f p hf _ (positions_nodup _ _) (mem_positions.2 ⟨hp1, hp2⟩)

/-- The breadth-first expansion drains its queue under the chosen fuel and
preserves the expansion invariant; previously assigned labels survive. -/
theorem visit_end (h w : Nat) (conn : Connexity) (v : Nat × Nat → Nat)
    (hvG : ∀ c, v c ≠ 0 → c.1 < h + 2 ∧ c.2 < w + 2) (lab : Nat) (hlab : lab ≠ 0)
    (seed : Nat × Nat) :
    ∀ (fuel : Nat) (work : Nat × Nat → Nat) (Q : List (Nat × Nat))
      (labels : Nat × Nat → Nat),
      BfsInv conn v work labels Q lab seed →
      9 * nzCount h w work + Q.length ≤ fuel →
      BfsInv conn v (visitNeighbors conn fuel work Q labels lab).1
        (visitNeighbors conn fuel work Q labels lab).2 [] lab seed ∧
      (∀ c, labels c ≠ 0 →
        (visitNeighbors conn fuel work Q labels lab).2 c = labels c) := by
  intro fuel
  induction fuel with
  | zero =>
    intro work Q labels hInv hm
    have hQ : Q = [] := by
      cases Q with
      | nil => rfl
      | cons a t =>
        exfalso
        simp only [List.length_cons] at hm
        omega
    subst hQ
    exact ⟨hInv, fun c _ => rfl⟩
  | succ f ih =>
    intro work Q labels hInv hm
    cases Q with
    | nil => exact ⟨hInv, fun c _ => rfl⟩
    | cons p rest =>
      have hred : visitNeighbors conn (f + 1) work (p :: rest) labels lab =
          if work p ≠ 0 then
            visitNeighbors conn f (upd work p 0) (rest ++ getNeighbors work conn p)
              (upd labels p lab) lab
          else visitNeighbors conn f work rest labels lab := rfl
      rw [hred]
      by_cases hwp : work p ≠ 0
      · rw [if_pos hwp]
        have hvp : v p = work p := by
          rcases hInv.sub p with h1 | h1
          · exact h1.symm
          · exact absurd h1 hwp
        have hvpne : v p ≠ 0 := by rw [hvp]; exact hwp
        have hlp : labels p = 0 := by
          by_contra hc
          exact hwp (hInv.labFg p hc).2
        have hpconn : connectedVia v conn seed p := by
          rcases hInv.queueConn p (List.mem_cons_self p rest) with h1 | h1
          · exact absurd h1 hwp
          · exact h1
        set ns := getNeighbors work conn p with hns
        have hInv2 : BfsInv conn v (upd work p 0) (upd labels p lab)
            (rest ++ ns) lab seed := by
          refine ⟨?_, ?_, ?_, ?_, ?_, ?_, ?_, ?_, ?_⟩
          · intro c
            by_cases hcp : c = p
            · subst hcp
              right
              simp [upd]
            · have h2 : upd work p 0 c = work c := by simp [upd, hcp]
              rw [h2]
              exact hInv.sub c
          · intro c hc
            by_cases hcp : c = p
            · subst hcp
              exact ⟨hvpne, by simp [upd]⟩
            · have h1 : upd labels p lab c = labels c := by simp [upd, hcp]
              have h2 : upd work p 0 c = work c := by simp [upd, hcp]
              rw [h1] at hc
              rw [h2]
              exact hInv.labFg c hc
          · intro c hv hc
            by_cases hcp : c = p
            · subst hcp
              simp [upd]
              exact hlab
            · have h2 : upd work p 0 c = work c := by simp [upd, hcp]
              rw [h2] at hc
              have h1 : upd labels p lab c = labels c := by simp [upd, hcp]
              rw [h1]
              exact hInv.consLab c hv hc
          · intro c
            by_cases hcp : c = p
            · subst hcp
              simp [upd]
            · have h1 : upd labels p lab c = labels c := by simp [upd, hcp]
              rw [h1]
              exact hInv.labMax c
          · intro c c' hc hcl hstep
            have hcp : c ≠ p := by
              intro he
              subst he
              exact hcl (by simp [upd])
            have h1 : upd labels p lab c = labels c := by simp [upd, hcp]
            rw [h1] at hc hcl
            have hc'p : c' ≠ p := by
              intro he
              rw [he] at hstep
              have h3 := hInv.oldClosed c p hc hcl hstep
              rw [hlp] at h3
              exact hc h3.symm
            have h2 : upd labels p lab c' = labels c' := by simp [upd, hc'p]
            rw [h1, h2]
            exact hInv.oldClosed c c' hc hcl hstep
          · intro c c' heq hc hcl
            have hcp : c ≠ p := by
              intro he
              subst he
              simp [upd] at hcl
            have h1 : upd labels p lab c = labels c := by simp [upd, hcp]
            rw [h1] at heq hc hcl
            have hc'p : c' ≠ p := by
              intro he
              subst he
              simp [upd] at heq
              exact hcl heq
            have h2 : upd labels p lab c' = labels c' := by simp [upd, hc'p]
            rw [h2] at heq
            exact hInv.oldSound c c' heq hc hcl
          · intro c hc
            by_cases hcp : c = p
            · subst hcp
              exact hpconn
            · have h1 : upd labels p lab c = labels c := by simp [upd, hcp]
              rw [h1] at hc
              exact hInv.labConn c hc
          · intro c hc
            rcases List.mem_append.1 hc with h1 | h1
            · rcases hInv.queueConn c (List.mem_cons_of_mem _ h1) with h2 | h2
              · by_cases hcp : c = p
                · right
                  subst hcp
                  exact hpconn
                · left
                  have h3 : upd work p 0 c = work c := by simp [upd, hcp]
                  rw [h3]
                  exact h2
              · right
                exact h2
            · right
              have hmem := (mem_getNeighbors_iff work conn p c).1 h1
              have hwc : work c = work p := hmem.2
              have hvc : v c = work c := by
                rcases hInv.sub c with h2 | h2
                · exact h2.symm
                · exfalso
                  rw [h2] at hwc
                  exact hwp hwc.symm
              refine Relation.ReflTransGen.tail hpconn ⟨hmem.1, ?_, hvpne⟩
              rw [hvp, hvc, hwc]
          · intro c c' hc hstep
            by_cases hc'p : c' = p
            · left
              subst hc'p
              simp [upd]
            · by_cases hcp : c = p
              · have hstep' : sameValStep v conn p c' := by
                  rw [← hcp]
                  exact hstep
                have hvc' : v c' ≠ 0 := by
                  rw [← hstep'.2.1]
                  exact hstep'.2.2
                rcases hInv.sub c' with h2 | h2
                · right
                  apply List.mem_append.2
                  right
                  apply (mem_getNeighbors_iff work conn p c').2
                  refine ⟨hstep'.1, ?_⟩
                  rw [h2, ← hstep'.2.1, hvp]
                · have hl' : labels c' ≠ 0 := hInv.consLab c' hvc' h2
                  by_cases hll : labels c' = lab
                  · left
                    have h3 : upd labels p lab c' = labels c' := by simp [upd, hc'p]
                    rw [h3]
                    exact hll
                  · exfalso
                    have h4 := hInv.oldClosed c' p hl' hll (sameValStep_symm hstep')
                    rw [hlp] at h4
                    exact hl' h4.symm
              · have h1 : upd labels p lab c = labels c := by simp [upd, hcp]
                rw [h1] at hc
                rcases hInv.frontier c c' hc hstep with h2 | h2
                · left
                  have h3 : upd labels p lab c' = labels c' := by simp [upd, hc'p]
                  rw [h3]
                  exact h2
                · rcases List.mem_cons.1 h2 with h3 | h3
                  · exact absurd h3 hc'p
                  · right
                    exact List.mem_append.2 (Or.inl h3)
        have hm2 : 9 * nzCount h w (upd work p 0) + (rest ++ ns).length ≤ f := by
          have hg := hvG p hvpne
          have hnz := nzCount_upd hg.1 hg.2 hwp
          have hlen : ns.length ≤ 8 := getNeighbors_length_le _ _ _
          simp only [List.length_cons] at hm
          rw [List.length_append]
          omega
        obtain ⟨hend, hpres⟩ := ih (upd work p 0) (rest ++ ns) (upd labels p lab)
          hInv2 hm2
        refine ⟨hend, ?_⟩
        intro c hc
        have hcp : c ≠ p := fun he => hc (by rw [he]; exact hlp)
        have h1 : upd labels p lab c = labels c := by simp [upd, hcp]
        rw [hpres c (by rw [h1]; exact hc), h1]
      · rw [if_neg hwp]
        have hwp0 : work p = 0 := by
          by_contra hc
          exact hwp hc
        have hInv2 : BfsInv conn v work labels rest lab seed := by
          refine ⟨hInv.sub, hInv.labFg, hInv.consLab, hInv.labMax, hInv.oldClosed,
            hInv.oldSound, hInv.labConn, ?_, ?_⟩
          · intro c hc
            exact hInv.queueConn c (List.mem_cons_of_mem _ hc)
          · intro c c' hc hstep
            rcases hInv.frontier c c' hc hstep with h1 | h1
            · exact Or.inl h1
            · rcases List.mem_cons.1 h1 with h2 | h2
              · subst h2
                left
                have hvp' : v c' ≠ 0 := by
                  rw [← hstep.2.1]
                  exact hstep.2.2
                have hlp' : labels c' ≠ 0 := hInv.consLab c' hvp' hwp0
                by_contra hne
                have h3 := hInv.oldClosed c' c hlp' hne (sameValStep_symm hstep)
                rw [hc] at h3
                exact hne h3.symm
              · exact Or.inr h2
        apply ih work rest labels hInv2
        simp only [List.length_cons] at hm
        omega

/-- The raster scan of `connectedComponents` preserves the scan invariant,
never unassigns a label, and labels every foreground cell whose position
it visits. -/
theorem ccScan_end (h w : Nat) (conn : Connexity) (v : Nat × Nat → Nat)
    (hvG : ∀ c, v c ≠ 0 → c.1 < h + 2 ∧ c.2 < w + 2) :
    ∀ (R : List (Nat × Nat)) (work labels : Nat × Nat → Nat) (next : Nat),
      ScanInv conn v work labels next →
      ScanInv conn v (ccScan h w conn R work labels next).1
        (ccScan h w conn R work labels next).2.1
        (ccScan h w conn R work labels next).2.2 ∧
      (∀ c, labels c ≠ 0 → (ccScan h w conn R work labels next).2.1 c = labels c) ∧
      (∀ q ∈ R, v (q.1 + 1, q.2 + 1) ≠ 0 →
        (ccScan h w conn R work labels next).2.1 (q.1 + 1, q.2 + 1) ≠ 0) := by
  intro R
  induction R with
  | nil =>
    intro work labels next hS
    exact ⟨hS, fun c _ => rfl, fun q hq => absurd hq (List.not_mem_nil q)⟩
  | cons q0 rest ih =>
    intro work labels next hS
    have hred : ccScan h w conn (q0 :: rest) work labels next =
        if work (q0.1 + 1, q0.2 + 1) ≠ 0 ∧ labels (q0.1 + 1, q0.2 + 1) = 0 then
          ccScan h w conn rest
            (visitNeighbors conn
              (9 * nzCount h w (upd work (q0.1 + 1, q0.2 + 1) 0) +
                (getNeighbors work conn (q0.1 + 1, q0.2 + 1)).length)
              (upd work (q0.1 + 1, q0.2 + 1) 0)
              (getNeighbors work conn (q0.1 + 1, q0.2 + 1))
              (upd labels (q0.1 + 1, q0.2 + 1) next) next).1
            (visitNeighbors conn
              (9 * nzCount h w (upd work (q0.1 + 1, q0.2 + 1) 0) +
                (getNeighbors work conn (q0.1 + 1, q0.2 + 1)).length)
              (upd work (q0.1 + 1, q0.2 + 1) 0)
              (getNeighbors work conn (q0.1 + 1, q0.2 + 1))
              (upd labels (q0.1 + 1, q0.2 + 1) next) next).2
            (next + 1)
        else ccScan h w conn rest work labels next := rfl
    rw [hred]
    by_cases hg : work (q0.1 + 1, q0.2 + 1) ≠ 0 ∧ labels (q0.1 + 1, q0.2 + 1) = 0
    · rw [if_pos hg]
      generalize hpd : ((q0.1 + 1, q0.2 + 1) : Nat × Nat) = p at hg ⊢
      obtain ⟨hwp, hlp⟩ := hg
      have hvp : v p = work p := by
        rcases hS.sub p with h1 | h1
        · exact h1.symm
        · exact absurd h1 hwp
      have hvpne : v p ≠ 0 := by
        rw [hvp]
        exact hwp
      have hnx0 : next ≠ 0 := by
        have := hS.nextPos
        omega
      have hB : BfsInv conn v (upd work p 0) (upd labels p next)
          (getNeighbors work conn p) next p := by
        refine ⟨?_, ?_, ?_, ?_, ?_, ?_, ?_, ?_, ?_⟩
        · intro c
          by_cases hcp : c = p
          · right
            rw [hcp]
            simp [upd]
          · have h2 : upd work p 0 c = work c := by simp [upd, hcp]
            rw [h2]
            exact hS.sub c
        · intro c hc
          by_cases hcp : c = p
          · rw [hcp]
            exact ⟨hvpne, by simp [upd]⟩
          · have h1 : upd labels p next c = labels c := by simp [upd, hcp]
            have h2 : upd work p 0 c = work c := by simp [upd, hcp]
            rw [h1] at hc
            rw [h2]
            exact hS.labFg c hc
        · intro c hv hc
          by_cases hcp : c = p
          · rw [hcp]
            simp [upd]
            exact hnx0
          · have h2 : upd work p 0 c = work c := by simp [upd, hcp]
            rw [h2] at hc
            have h1 : upd labels p next c = labels c := by simp [upd, hcp]
            rw [h1]
            exact hS.consLab c hv hc
        · intro c
          by_cases hcp : c = p
          · rw [hcp]
            simp [upd]
          · have h1 : upd labels p next c = labels c := by simp [upd, hcp]
            rw [h1]
            exact le_of_lt (hS.labLt c)
        · intro c c' hc hcl hstep
          have hcp : c ≠ p := by
            intro he
            rw [he] at hcl
            exact hcl (by simp [upd])
          have h1 : upd labels p next c = labels c := by simp [upd, hcp]
          rw [h1] at hc hcl
          have h3 := hS.closed c c' hc hstep
          have hc'p : c' ≠ p := by
            intro he
            rw [he] at h3
            rw [hlp] at h3
            exact hc h3.symm
          have h2 : upd labels p next c' = labels c' := by simp [upd, hc'p]
          rw [h1, h2]
          exact h3
        · intro c c' heq hc hcl
          have hcp : c ≠ p := by
            intro he
            rw [he] at hcl
            exact hcl (by simp [upd])
          have h1 : upd labels p next c = labels c := by simp [upd, hcp]
          rw [h1] at heq hc hcl
          have hc'p : c' ≠ p := by
            intro he
            rw [he] at heq
            simp [upd] at heq
            exact hcl heq
          have h2 : upd labels p next c' = labels c' := by simp [upd, hc'p]
          rw [h2] at heq
          exact hS.sound c c' heq hc
        · intro c hc
          by_cases hcp : c = p
          · rw [hcp]
            exact Relation.ReflTransGen.refl
          · have h1 : upd labels p next c = labels c := by simp [upd, hcp]
            rw [h1] at hc
            exact absurd hc (by have := hS.labLt c; omega)
        · intro c hc
          have hmem := (mem_getNeighbors_iff work conn p c).1 hc
          have hwc : work c = work p := hmem.2
          have hvc : v c = work c := by
            rcases hS.sub c with h2 | h2
            · exact h2.symm
            · exfalso
              rw [h2] at hwc
              exact hwp hwc.symm
          right
          refine Relation.ReflTransGen.single ⟨hmem.1, ?_, hvpne⟩
          rw [hvp, hvc, hwc]
        · intro c c' hc hstep
          have hcp : c = p := by
            by_contra hne
            have h1 : upd labels p next c = labels c := by simp [upd, hne]
            rw [h1] at hc
            exact absurd hc (by have := hS.labLt c; omega)
          have hstep' : sameValStep v conn p c' := by
            rw [← hcp]
            exact hstep
          have hvc' : v c' ≠ 0 := by
            rw [← hstep'.2.1]
            exact hstep'.2.2
          rcases hS.sub c' with h2 | h2
          · right
            apply (mem_getNeighbors_iff work conn p c').2
            refine ⟨hstep'.1, ?_⟩
            rw [h2, ← hstep'.2.1, hvp]
          · have hl' : labels c' ≠ 0 := hS.consLab c' hvc' h2
            exfalso
            have h3 := hS.closed c' p hl' (sameValStep_symm hstep')
            rw [hlp] at h3
            exact hl' h3.symm
      obtain ⟨hend, hpres⟩ := visit_end h w conn v hvG next hnx0 p
        (9 * nzCount h w (upd work p 0) + (getNeighbors work conn p).length)
        (upd work p 0) (getNeighbors work conn p) (upd labels p next) hB (le_refl _)
      set st := visitNeighbors conn
        (9 * nzCount h w (upd work p 0) + (getNeighbors work conn p).length)
        (upd work p 0) (getNeighbors work conn p) (upd labels p next) next with hstd
      have hS2 : ScanInv conn v st.1 st.2 (next + 1) := by
        refine ⟨hend.sub, hend.labFg, hend.consLab, ?_, ?_, ?_, ?_⟩
        · intro c c' hc hstep
          by_cases hcl : st.2 c = next
          · rcases hend.frontier c c' hcl hstep with h1 | h1
            · rw [h1, hcl]
            · cases h1
          · exact hend.oldClosed c c' hc hcl hstep
        · intro c c' heq hc
          by_cases hcl : st.2 c = next
          · exact Relation.ReflTransGen.trans
              (connectedVia_symm (hend.labConn c hcl))
              (hend.labConn c' (by rw [← heq]; exact hcl))
          · exact hend.oldSound c c' heq hc hcl
        · intro c
          have := hend.labMax c
          omega
        · have := hS.nextPos
          omega
      obtain ⟨ihS, ihPres, ihCompl⟩ := ih st.1 st.2 (next + 1) hS2
      refine ⟨ihS, ?_, ?_⟩
      · intro c hc
        have hcp : c ≠ p := fun he => hc (by rw [he]; exact hlp)
        have h1 : upd labels p next c = labels c := by simp [upd, hcp]
        have h2 : st.2 c = labels c := by
          rw [hpres c (by rw [h1]; exact hc), h1]
        rw [ihPres c (by rw [h2]; exact hc), h2]
      · intro q hq hv
        rcases List.mem_cons.1 hq with h1 | h1
        · have hqp : ((q.1 + 1, q.2 + 1) : Nat × Nat) = p := by
            rw [h1]
            exact hpd
          rw [hqp]
          have hl1p : upd labels p next p = next := by simp [upd]
          have h2 : st.2 p = next := by
            rw [hpres p (by rw [hl1p]; exact hnx0), hl1p]
          rw [ihPres p (by rw [h2]; exact hnx0), h2]
          exact hnx0
        · exact ihCompl q h1 hv
    · rw [if_neg hg]
      obtain ⟨ihS, ihPres, ihCompl⟩ := ih work labels next hS
      refine ⟨ihS, ihPres, ?_⟩
      intro q hq hv
      rcases List.mem_cons.1 hq with h1 | h1
      · have hl : labels (q.1 + 1, q.2 + 1) ≠ 0 := by
          rcases not_and_or.1 hg with h2 | h2
          · have hw0 : work (q.1 + 1, q.2 + 1) = 0 := by
              by_contra hc
              rw [h1] at hc
              exact h2 hc
            exact hS.consLab _ hv hw0
          · rw [h1]
            exact h2
        rw [ihPres _ hl]
        exact hl
      · exact ihCompl q h1 hv

theorem padShift (I : ImgU) (a : Nat × Nat) :
    padImage I (a.1 + 1, a.2 + 1) = vOrig I a := by
  unfold padImage vOrig
  show (if 1 ≤ a.1 + 1 ∧ a.1 + 1 ≤ I.h ∧ 1 ≤ a.2 + 1 ∧ a.2 + 1 ≤ I.w then
    I.get (a.1 + 1 - 1) (a.2 + 1 - 1) else 0) = I.get a.1 a.2
  by_cases hb : a.1 < I.h ∧ a.2 < I.w
  · rw [if_pos ⟨by omega, by omega, by omega, by omega⟩]
    simp
  · rw [if_neg (by omega)]
    unfold ImgU.get
    rw [if_neg hb]

theorem adjC_shift (conn : Connexity) (a b : Nat × Nat) :
    adjC conn (a.1 + 1, a.2 + 1) (b.1 + 1, b.2 + 1) ↔ adjC conn a b := by
  cases conn <;> simp only [adjC, adj4, adj8] <;> omega

theorem step_shift (I : ImgU) (conn : Connexity) (a b : Nat × Nat) :
    sameValStep (padImage I) conn (a.1 + 1, a.2 + 1) (b.1 + 1, b.2 + 1) ↔
      sameValStep (vOrig I) conn a b := by
  unfold sameValStep
  rw [padShift, padShift, adjC_shift]

theorem conn_shift_up {I : ImgU} {conn : Connexity} {a b : Nat × Nat}
    (h : connectedVia (vOrig I) conn a b) :
    connectedVia (padImage I) conn (a.1 + 1, a.2 + 1) (b.1 + 1, b.2 + 1) := by
  induction h with
  | refl => exact Relation.ReflTransGen.refl
  | tail hxm hstep ih =>
    exact Relation.ReflTransGen.tail ih ((step_shift I conn _ _).2 hstep)

theorem conn_shift_down {I : ImgU} {conn : Connexity} {a b : Nat × Nat}
    (h : connectedVia (padImage I) conn (a.1 + 1, a.2 + 1) (b.1 + 1, b.2 + 1)) :
    connectedVia (vOrig I) conn a b := by
  have aux : ∀ x y : Nat × Nat, connectedVia (padImage I) conn x y →
      ∀ a2 : Nat × Nat, x = (a2.1 + 1, a2.2 + 1) →
      ∀ b2 : Nat × Nat, y = (b2.1 + 1, b2.2 + 1) →
      connectedVia (vOrig I) conn a2 b2 := by
    intro x y hxy
    induction hxy with
    | refl =>
      intro a2 hx b2 hy
      have hab : a2 = b2 := by
        rw [hx] at hy
        have h1 : a2 = (a2.1, a2.2) := rfl
        have h2 : b2 = (b2.1, b2.2) := rfl
        rw [h1, h2]
        simp only [Prod.mk.injEq] at hy ⊢
        constructor <;> omega
      rw [hab]
      exact Relation.ReflTransGen.refl
    | @tail m yy hxm hstep ih =>
      intro a2 hx b2 hy
      have hmne : padImage I m ≠ 0 := hstep.2.2
      have hmb : 1 ≤ m.1 ∧ m.1 ≤ I.h ∧ 1 ≤ m.2 ∧ m.2 ≤ I.w := by
        by_contra hc
        exact hmne (by unfold padImage; rw [if_neg hc])
      have hmeq : m = ((m.1 - 1) + 1, (m.2 - 1) + 1) := by
        have h1 : m = (m.1, m.2) := rfl
        rw [h1]
        simp only [Prod.mk.injEq]
        constructor <;> omega
      have ihm := ih a2 hx (m.1 - 1, m.2 - 1) hmeq
      have hstep1 : sameValStep (padImage I) conn ((m.1 - 1) + 1, (m.2 - 1) + 1)
          yy := by
        rw [← hmeq]
        exact hstep
      have hstep2 : sameValStep (padImage I) conn ((m.1 - 1) + 1, (m.2 - 1) + 1)
          (b2.1 + 1, b2.2 + 1) := by
        rw [← hy]
        exact hstep1
      exact Relation.ReflTransGen.tail ihm
        ((step_shift I conn (m.1 - 1, m.2 - 1) b2).1 hstep2)
  exact aux _ _ h a rfl b rfl

theorem get_ne_bounds {I : ImgU} {i j : Nat} (h : I.get i j ≠ 0) :
    i < I.h ∧ j < I.w := by
  by_contra hc
  exact h (by unfold ImgU.get; rw [if_neg hc])

/-- **C2**.  Correctness of the expansion labeler: after
`connectedComponents`, every background pixel holds label 0, every
foreground pixel holds a nonzero label, and two foreground pixels hold
the same label exactly when a same-value path under the chosen
connectivity joins them. -/
theorem c2_expansion_partition (I : ImgU) (conn : Connexity) :
    (∀ p : Nat × Nat, I.get p.1 p.2 = 0 → ccLabels I conn p = 0) ∧
    (∀ p : Nat × Nat, I.get p.1 p.2 ≠ 0 → ccLabels I conn p ≠ 0) ∧
    (∀ p q : Nat × Nat, I.get p.1 p.2 ≠ 0 → I.get q.1 q.2 ≠ 0 →
      (ccLabels I conn p = ccLabels I conn q ↔ connectedVia (vOrig I) conn p q)) := by
  have hvG : ∀ c : Nat × Nat, padImage I c ≠ 0 → c.1 < I.h + 2 ∧ c.2 < I.w + 2 := by
    intro c hc
    have hb : 1 ≤ c.1 ∧ c.1 ≤ I.h ∧ 1 ≤ c.2 ∧ c.2 ≤ I.w := by
      by_contra h2
      exact hc (by unfold padImage; rw [if_neg h2])
    omega
  have hS0 : ScanInv conn (padImage I) (padImage I) (fun _ => 0) 1 := by
    refine ⟨fun c => Or.inl rfl, ?_, ?_, ?_, ?_, ?_, le_refl 1⟩
    · intro c hc
      exact absurd rfl hc
    · intro c hv hc
      exact absurd hc hv
    · intro c c' hc _
      exact absurd rfl hc
    · intro c c' _ hc
      exact absurd rfl hc
    · intro c
      exact Nat.zero_lt_one
  obtain ⟨hS, hPres, hCompl⟩ := ccScan_end I.h I.w conn (padImage I) hvG
    (positions I.h I.w) (padImage I) (fun _ => 0) 1 hS0
  set st := ccScan I.h I.w conn (positions I.h I.w) (padImage I) (fun _ => 0) 1
    with hstd
  have hcrop : ∀ p : Nat × Nat, p.1 < I.h → p.2 < I.w →
      ccLabels I conn p = st.2.1 (p.1 + 1, p.2 + 1) := by
    intro p h1 h2
    show (if p.1 < I.h ∧ p.2 < I.w then st.2.1 (p.1 + 1, p.2 + 1) else 0) = _
    rw [if_pos ⟨h1, h2⟩]
  have hfg : ∀ p : Nat × Nat, I.get p.1 p.2 ≠ 0 → st.2.1 (p.1 + 1, p.2 + 1) ≠ 0 := by
    intro p hp
    have hb := get_ne_bounds hp
    apply hCompl p (mem_positions.2 hb)
    rw [padShift]
    exact hp
  refine ⟨?_, ?_, ?_⟩
  · intro p hp
    by_cases hb : p.1 < I.h ∧ p.2 < I.w
    · rw [hcrop p hb.1 hb.2]
      by_contra hc
      have h2 := (hS.labFg _ hc).1
      rw [padShift] at h2
      exact h2 hp
    · show (if p.1 < I.h ∧ p.2 < I.w then st.2.1 (p.1 + 1, p.2 + 1) else 0) = 0
      rw [if_neg hb]
  · intro p hp
    have hb := get_ne_bounds hp
    rw [hcrop p hb.1 hb.2]
    exact hfg p hp
  · intro p q hp hq
    have hbp := get_ne_bounds hp
    have hbq := get_ne_bounds hq
    rw [hcrop p hbp.1 hbp.2, hcrop q hbq.1 hbq.2]
    constructor
    · intro heq
      exact conn_shift_down (hS.sound _ _ heq (hfg p hp))
    · intro hconn
      have h2 := conn_shift_up hconn
      have hconst : ∀ a b : Nat × Nat, connectedVia (padImage I) conn a b →
          st.2.1 a ≠ 0 → st.2.1 b = st.2.1 a := by
        intro a b hab
        induction hab with
        | refl => intro _; rfl
        | tail hxm hstep ih =>
          intro ha
          rw [hS.closed _ _ (by rw [ih ha]; exact ha) hstep, ih ha]
      exact (hconst _ _ h2 (hfg p hp)).symm

/-- Witness for C2 at the concrete image `imgC1` under 4-connectivity: the
two vertically adjacent foreground pixels share their label, the
background pixel gets 0, and the foreground label is nonzero. -/
theorem c2_expansion_partition_witness :
    ccLabels imgC1 .four (0, 0) = ccLabels imgC1 .four (1, 0) ∧
    ccLabels imgC1 .four (0, 1) = 0 ∧
    ccLabels imgC1 .four (0, 0) ≠ 0 :=
  ⟨((c2_expansion_partition imgC1 .four).2.2 (0, 0) (1, 0) (by decide)
      (by decide)).2
    (Relation.ReflTransGen.single ⟨by decide, by decide, by decide⟩),
   (c2_expansion_partition imgC1 .four).1 (0, 1) (by decide),
   (c2_expansion_partition imgC1 .four).2.1 (0, 0) (by decide)⟩

end Visp
